import Mathlib

/-!
# Glow graph substrate: operand slots, use lists and the visitor walk

A shallow embedding of `src/glow/Graph/Nodes.cpp`.

* A node is identified by a value of type `Node` (the C++ `Node *`), an operand
  slot by a value of type `Slot` (the address of a C++ `NodeOperand`).  A null
  `Node *` is `none`.
* The mutable part of a graph is a `Wiring`: the field `node_` of every operand
  slot and the use list `users_` of every node.
* `assert` is modelled with assertions enabled: a failing assertion stops the
  call, and the outcome records the state in which it stopped.
-/

namespace Glow

/-! ## Definitions -/

/-- A use-list entry.  C++: `struct NodeUse` holding `NodeOperand *site_`, the
address of the operand slot that points at the node; two entries are equal
exactly when they name the same slot. -/
structure NodeUse (Slot : Type) where
  site_ : Slot
  deriving DecidableEq, Repr

/-- The mutable state of a graph: what every operand slot holds
(`NodeOperand::node_`, `none` for `nullptr`) and the use list of every node. -/
structure Wiring (Node Slot : Type) where
  node_ : Slot → Option Node
  users_ : Node → List (NodeUse Slot)

/-- The graph right after construction: every slot empty, every use list empty. -/
def Wiring.empty (Node Slot : Type) : Wiring Node Slot :=
  { node_ := fun _ => none, users_ := fun _ => [] }

/-- The ways a call can stop before its end. -/
inductive Fault where
  /-- The assertion of `NodeUse::setOperand` failed (setting an operand to a node
  with a different type). -/
  | typeMismatch
  /-- The use-site to remove is not on the list of the producer. -/
  | useNotFound
  deriving DecidableEq, Repr

/-- The outcome of a call that mutates the graph. -/
inductive Outcome (Node Slot : Type) where
  /-- The call ran to its end and left the graph in state `g`. -/
  | returned (g : Wiring Node Slot)
  /-- The call stopped with fault `f`; `g` is the state at that moment. -/
  | aborted (f : Fault) (g : Wiring Node Slot)

/-- The graph state an outcome leaves behind. -/
def Outcome.state {Node Slot : Type} : Outcome Node Slot → Wiring Node Slot
  | .returned g => g
  | .aborted _ g => g

/-- Sequencing of two mutating steps: the second runs only if the first returned. -/
def Outcome.andThen {Node Slot : Type} (r : Outcome Node Slot)
    (k : Wiring Node Slot → Outcome Node Slot) : Outcome Node Slot :=
  match r with
  | .returned g => k g
  | .aborted f g => .aborted f g

/-- Modelled from the spec: `Node::addUse` is declared in a header that is not
part of the sources at hand.  The spec (4.1): a new use-site, identifying this
slot, is appended to the use-site list of the producer. -/
def addUse {Slot : Type} (users : List (NodeUse Slot)) (U : NodeUse Slot) : List (NodeUse Slot) :=
  users ++ [U]

/-- Modelled from the spec: `Node::removeUse` is declared in a header that is not
part of the sources at hand.  The spec (4.1, 4.3): the use-site of this slot is
removed from the use-site list of the producer, exactly that occurrence, with
list (not set) semantics.  The spec describes the removal of an entry that is present; when no
entry names the slot the result is `none`, so that this case is never silently
taken for a removal. -/
def removeUse {Slot : Type} [DecidableEq Slot] (users : List (NodeUse Slot)) (U : NodeUse Slot) :
    Option (List (NodeUse Slot)) :=
  if U ∈ users then some (users.erase U) else none

section EdgeSlot

variable {Node Slot Ty : Type} [DecidableEq Node] [DecidableEq Slot] [DecidableEq Ty]

/-- First block of `NodeOperand::setOperand`:
`if (node_) { node_->removeUse(NodeUse(this)); node_ = nullptr; }`. -/
def NodeOperand.dropOld (g : Wiring Node Slot) (this : Slot) : Outcome Node Slot :=
  match g.node_ this with
  | some n =>
    match removeUse (g.users_ n) ⟨this⟩ with
    | some us =>
      .returned { node_ := Function.update g.node_ this none,
                  users_ := Function.update g.users_ n us }
    | none => .aborted .useNotFound g
  | none => .returned g

/-- Second block of `NodeOperand::setOperand`:
`if (v) { node_ = v; v->addUse(NodeUse(this)); }`. -/
def NodeOperand.takeNew (g : Wiring Node Slot) (this : Slot) (v : Option Node) :
    Outcome Node Slot :=
  match v with
  | some n =>
    .returned { node_ := Function.update g.node_ this (some n),
                users_ := Function.update g.users_ n (addUse (g.users_ n) ⟨this⟩) }
  | none => .returned g

/-- C++ `void NodeOperand::setOperand(Node *v)` (Nodes.cpp, lines 18-32): nothing
happens when the slot already holds `v`; otherwise the old use-site is removed
and the slot cleared, then the new value is stored and its use-site added. -/
def NodeOperand.setOperand (g : Wiring Node Slot) (this : Slot) (v : Option Node) :
    Outcome Node Slot :=
  if g.node_ this = v then .returned g
  else (NodeOperand.dropOld g this).andThen fun g1 => NodeOperand.takeNew g1 this v

/-- C++ `void NodeUse::setOperand(Node *other)` (Nodes.cpp, lines 10-16).  The
parameter `getType` is `Node::getType`, fixed when a node is constructed. -/
def NodeUse.setOperand (getType : Node → Ty) (g : Wiring Node Slot) (U : NodeUse Slot)
    (other : Option Node) : Outcome Node Slot :=
  match other, g.node_ U.site_ with
  | some o, some held =>
    if getType held = getType o then NodeOperand.setOperand g U.site_ other
    else .aborted .typeMismatch g
  | _, _ => NodeOperand.setOperand g U.site_ other

/-- A finite sequence of `NodeOperand::setOperand` calls, each on its own slot
with its own argument, run one after the other. -/
def runOperandCalls (g : Wiring Node Slot) : List (Slot × Option Node) → Outcome Node Slot
  | [] => .returned g
  | c :: cs => (NodeOperand.setOperand g c.1 c.2).andThen fun g1 => runOperandCalls g1 cs

/-- A finite sequence of `NodeUse::setOperand` calls run one after the other. -/
def runUseCalls (getType : Node → Ty) (g : Wiring Node Slot) :
    List (Slot × Option Node) → Outcome Node Slot
  | [] => .returned g
  | c :: cs => (NodeUse.setOperand getType g ⟨c.1⟩ c.2).andThen fun g1 => runUseCalls getType g1 cs

/-- The use-list invariant: a use list names a slot once if the slot holds the
node, and not at all otherwise. -/
def Consistent (g : Wiring Node Slot) : Prop :=
  ∀ (N : Node) (S : Slot), (g.users_ N).count ⟨S⟩ = if g.node_ S = some N then 1 else 0

/-- The number of operand slots of the whole graph that hold `N`. -/
def slotsHolding [Fintype Slot] (g : Wiring Node Slot) (N : Node) : Nat :=
  (Finset.univ.filter fun S => g.node_ S = some N).card

/-- The number of use-sites recorded on `N` (C++: `getNumUsers`). -/
def numUsers (g : Wiring Node Slot) (N : Node) : Nat :=
  (g.users_ N).length

/-- The use-site of slot `S` is on the list of the node that `S` holds. -/
def Found (g : Wiring Node Slot) (S : Slot) : Prop :=
  ∀ A, g.node_ S = some A → (⟨S⟩ : NodeUse Slot) ∈ g.users_ A

/-- The frame of one `setOperand(v)` call on slot `S` that takes state `g` to
state `g1`. -/
def Frame (g : Wiring Node Slot) (S : Slot) (v : Option Node) (g1 : Wiring Node Slot) : Prop :=
  (∀ N, g.node_ S ≠ some N → v ≠ some N → g1.users_ N = g.users_ N) ∧
  (∀ S1, S1 ≠ S → g1.node_ S1 = g.node_ S1) ∧
  (∀ N, numUsers g1 N < numUsers g N → g.node_ S = some N) ∧
  (∀ N, numUsers g N < numUsers g1 N → v = some N)

end EdgeSlot


/-! ### The visitor walk -/

/-- The node classes of Nodes.cpp, each with the operand slots its `visit`
method dereferences, under the names of the C++ fields. -/
inductive Kind (Slot : Type) where
  | Variable
  | Pool (in_ : Slot)
  | LocalResponseNormalization (in_ : Slot)
  | Relu (in_ : Slot)
  | Reshape (in_ : Slot)
  | Transpose (in_ : Slot)
  | Sigmoid (in_ : Slot)
  | Tanh (in_ : Slot)
  | Return (in_ : Slot)
  | Convolution (in_ filter_ bias_ : Slot)
  | FullyConnected (in_ filter_ bias_ : Slot)
  | BatchNormalization (in_ scale_ bias_ mean_ var_ : Slot)
  | Arithmetic (LHS_ RHS_ : Slot)
  | SoftMax (in_ selected_ : Slot)
  | Regression (in_ expected_ : Slot)
  | Concat (in_ : List Slot)

/-- One call of a visitor hook, with its arguments (`parent` may be null). -/
inductive Hook (Node : Type) where
  | shouldVisit (parent : Option Node) (N : Node)
  | pre (parent : Option Node) (N : Node)
  | post (parent : Option Node) (N : Node)
  deriving DecidableEq, Repr

/-- C++ `NodeVisitor`: the three hooks, acting on the state `σ` of the visitor. -/
structure NodeVisitor (σ Node : Type) where
  shouldVisit : Option Node → Node → σ → Bool × σ
  pre : Option Node → Node → σ → σ
  post : Option Node → Node → σ → σ

/-- The ways a walk can fail to run to its end. -/
inductive WalkFault where
  /-- A call `X_->visit(...)` on an operand slot that holds `nullptr`. -/
  | nullOperand
  /-- The recursion is deeper than the fuel given. -/
  | outOfFuel
  deriving DecidableEq, Repr

/-- A piece of a walk: from the state of the visitor to its new state and the hook
calls made, in order. -/
abbrev Walk (σ Node : Type) := σ → Except WalkFault (σ × List (Hook Node))

section Visit

variable {σ Node Slot : Type}

/-- Two statements one after the other. -/
def Walk.seq (a b : Walk σ Node) : Walk σ Node := fun s =>
  match a s with
  | .error e => .error e
  | .ok r1 =>
    match b r1.1 with
    | .error e => .error e
    | .ok r2 => .ok (r2.1, r1.2 ++ r2.2)

/-- Statement `visitor->pre(parent, this);`. -/
def callPre (V : NodeVisitor σ Node) (parent : Option Node) (this : Node) : Walk σ Node :=
  fun s => .ok (V.pre parent this s, [.pre parent this])

/-- Statement `visitor->post(parent, this);`. -/
def callPost (V : NodeVisitor σ Node) (parent : Option Node) (this : Node) : Walk σ Node :=
  fun s => .ok (V.post parent this s, [.post parent this])

/-- Statement `if (!visitor->shouldVisit(parent, this)) return;` followed by
`body`. -/
def guarded (V : NodeVisitor σ Node) (parent : Option Node) (this : Node)
    (body : Walk σ Node) : Walk σ Node := fun s =>
  if (V.shouldVisit parent this s).1 then
    match body (V.shouldVisit parent this s).2 with
    | .error e => .error e
    | .ok r => .ok (r.1, .shouldVisit parent this :: r.2)
  else .ok ((V.shouldVisit parent this s).2, [.shouldVisit parent this])

/-- Statement `X_->visit(this, visitor);` for an operand slot `X_`: the slot is
dereferenced and the virtual `visit` of the node it holds is called. -/
def arrowVisit (g : Wiring Node Slot) (visit : Option Node → Node → Walk σ Node)
    (this : Node) (X_ : Slot) : Walk σ Node :=
  match g.node_ X_ with
  | none => fun _ => .error .nullOperand
  | some n => visit (some this) n

/-- Loop `for (auto &I : in_) I->visit(this, visitor);` over the stored inputs. -/
def forEachVisit (g : Wiring Node Slot) (visit : Option Node → Node → Walk σ Node)
    (this : Node) : List Slot → Walk σ Node
  | [] => fun s => .ok (s, [])
  | I :: rest => (arrowVisit g visit this I).seq (forEachVisit g visit this rest)

/-- Method `Variable::visit` (lines 38-44). -/
def Variable.visit (V : NodeVisitor σ Node) (parent : Option Node) (this : Node) : Walk σ Node :=
  guarded V parent this <|
    (callPre V parent this).seq (callPost V parent this)

/-- The body that `DEFINE_CLASS_VISITOR` (lines 46-53) gives to `visit` of
`PoolNode`, `LocalResponseNormalizationNode`, `ReluNode`, `ReshapeNode`,
`TransposeNode`, `SigmoidNode`, `TanhNode` and `ReturnNode`. -/
def DEFINE_CLASS_VISITOR (V : NodeVisitor σ Node) (g : Wiring Node Slot)
    (visit : Option Node → Node → Walk σ Node) (in_ : Slot)
    (parent : Option Node) (this : Node) : Walk σ Node :=
  guarded V parent this <|
    (callPre V parent this).seq <|
    (arrowVisit g visit this in_).seq <|
    callPost V parent this

/-- Method `ConvolutionNode::visit` (lines 64-73). -/
def ConvolutionNode.visit (V : NodeVisitor σ Node) (g : Wiring Node Slot)
    (visit : Option Node → Node → Walk σ Node) (in_ filter_ bias_ : Slot)
    (parent : Option Node) (this : Node) : Walk σ Node :=
  guarded V parent this <|
    (callPre V parent this).seq <|
    (arrowVisit g visit this in_).seq <|
    (arrowVisit g visit this filter_).seq <|
    (arrowVisit g visit this bias_).seq <|
    callPost V parent this

/-- Method `FullyConnectedNode::visit` (lines 75-84). -/
def FullyConnectedNode.visit (V : NodeVisitor σ Node) (g : Wiring Node Slot)
    (visit : Option Node → Node → Walk σ Node) (in_ filter_ bias_ : Slot)
    (parent : Option Node) (this : Node) : Walk σ Node :=
  guarded V parent this <|
    (callPre V parent this).seq <|
    (arrowVisit g visit this in_).seq <|
    (arrowVisit g visit this filter_).seq <|
    (arrowVisit g visit this bias_).seq <|
    callPost V parent this

/-- Method `BatchNormalizationNode::visit` (lines 86-97). -/
def BatchNormalizationNode.visit (V : NodeVisitor σ Node) (g : Wiring Node Slot)
    (visit : Option Node → Node → Walk σ Node) (in_ scale_ bias_ mean_ var_ : Slot)
    (parent : Option Node) (this : Node) : Walk σ Node :=
  guarded V parent this <|
    (callPre V parent this).seq <|
    (arrowVisit g visit this in_).seq <|
    (arrowVisit g visit this scale_).seq <|
    (arrowVisit g visit this bias_).seq <|
    (arrowVisit g visit this mean_).seq <|
    (arrowVisit g visit this var_).seq <|
    callPost V parent this

/-- Method `ArithmeticNode::visit` (lines 99-107). -/
def ArithmeticNode.visit (V : NodeVisitor σ Node) (g : Wiring Node Slot)
    (visit : Option Node → Node → Walk σ Node) (LHS_ RHS_ : Slot)
    (parent : Option Node) (this : Node) : Walk σ Node :=
  guarded V parent this <|
    (callPre V parent this).seq <|
    (arrowVisit g visit this LHS_).seq <|
    (arrowVisit g visit this RHS_).seq <|
    callPost V parent this

/-- Method `SoftMaxNode::visit` (lines 109-117). -/
def SoftMaxNode.visit (V : NodeVisitor σ Node) (g : Wiring Node Slot)
    (visit : Option Node → Node → Walk σ Node) (in_ selected_ : Slot)
    (parent : Option Node) (this : Node) : Walk σ Node :=
  guarded V parent this <|
    (callPre V parent this).seq <|
    (arrowVisit g visit this in_).seq <|
    (arrowVisit g visit this selected_).seq <|
    callPost V parent this

/-- Method `RegressionNode::visit` (lines 119-127). -/
def RegressionNode.visit (V : NodeVisitor σ Node) (g : Wiring Node Slot)
    (visit : Option Node → Node → Walk σ Node) (in_ expected_ : Slot)
    (parent : Option Node) (this : Node) : Walk σ Node :=
  guarded V parent this <|
    (callPre V parent this).seq <|
    (arrowVisit g visit this in_).seq <|
    (arrowVisit g visit this expected_).seq <|
    callPost V parent this

/-- Method `ConcatNode::visit` (lines 129-138). -/
def ConcatNode.visit (V : NodeVisitor σ Node) (g : Wiring Node Slot)
    (visit : Option Node → Node → Walk σ Node) (in_ : List Slot)
    (parent : Option Node) (this : Node) : Walk σ Node :=
  guarded V parent this <|
    (callPre V parent this).seq <|
    (forEachVisit g visit this in_).seq <|
    callPost V parent this

/-- The virtual call `N->visit(parent, visitor)`: dispatch on the class of the
node.  `kindOf` gives the class and operand slots of every node, fixed when it
is constructed.  The first argument bounds the depth of the recursion. -/
def visit (V : NodeVisitor σ Node) (kindOf : Node → Kind Slot) (g : Wiring Node Slot) :
    Nat → Option Node → Node → Walk σ Node
  | 0, _, _ => fun _ => .error .outOfFuel
  | fuel + 1, parent, this =>
    match kindOf this with
    | .Variable => Variable.visit V parent this
    | .Pool in_ => DEFINE_CLASS_VISITOR V g (visit V kindOf g fuel) in_ parent this
    | .LocalResponseNormalization in_ =>
      DEFINE_CLASS_VISITOR V g (visit V kindOf g fuel) in_ parent this
    | .Relu in_ => DEFINE_CLASS_VISITOR V g (visit V kindOf g fuel) in_ parent this
    | .Reshape in_ => DEFINE_CLASS_VISITOR V g (visit V kindOf g fuel) in_ parent this
    | .Transpose in_ => DEFINE_CLASS_VISITOR V g (visit V kindOf g fuel) in_ parent this
    | .Sigmoid in_ => DEFINE_CLASS_VISITOR V g (visit V kindOf g fuel) in_ parent this
    | .Tanh in_ => DEFINE_CLASS_VISITOR V g (visit V kindOf g fuel) in_ parent this
    | .Return in_ => DEFINE_CLASS_VISITOR V g (visit V kindOf g fuel) in_ parent this
    | .Convolution in_ filter_ bias_ =>
      ConvolutionNode.visit V g (visit V kindOf g fuel) in_ filter_ bias_ parent this
    | .FullyConnected in_ filter_ bias_ =>
      FullyConnectedNode.visit V g (visit V kindOf g fuel) in_ filter_ bias_ parent this
    | .BatchNormalization in_ scale_ bias_ mean_ var_ =>
      BatchNormalizationNode.visit V g (visit V kindOf g fuel) in_ scale_ bias_ mean_ var_
        parent this
    | .Arithmetic LHS_ RHS_ =>
      ArithmeticNode.visit V g (visit V kindOf g fuel) LHS_ RHS_ parent this
    | .SoftMax in_ selected_ =>
      SoftMaxNode.visit V g (visit V kindOf g fuel) in_ selected_ parent this
    | .Regression in_ expected_ =>
      RegressionNode.visit V g (visit V kindOf g fuel) in_ expected_ parent this
    | .Concat in_ => ConcatNode.visit V g (visit V kindOf g fuel) in_ parent this

/-- The call `N->visit(P, visitor)` in visitor state `s` runs to its end, leaves
the visitor in state `s1` and makes the hook calls `t`, in order. -/
def Completes (V : NodeVisitor σ Node) (kindOf : Node → Kind Slot) (g : Wiring Node Slot)
    (P : Option Node) (N : Node) (s s1 : σ) (t : List (Hook Node)) : Prop :=
  ∃ fuel, visit V kindOf g fuel P N s = .ok (s1, t)

/-- The nodes `ns` are visited one after the other, in list order, each with
caller `this`: the walk starts in visitor state `s`, the j-th visit makes the
hook calls `ts[j]`, and the last one leaves the visitor in state `s1`. -/
inductive SubVisits (V : NodeVisitor σ Node) (kindOf : Node → Kind Slot)
    (g : Wiring Node Slot) (this : Node) :
    List Node → σ → List (List (Hook Node)) → σ → Prop where
  | nil (s : σ) : SubVisits V kindOf g this [] s [] s
  | cons {n : Node} {ns : List Node} {s s1 s2 : σ} {t : List (Hook Node)}
      {ts : List (List (Hook Node))} :
      Completes V kindOf g (some this) n s s1 t →
      SubVisits V kindOf g this ns s1 ts s2 →
      SubVisits V kindOf g this (n :: ns) s (t :: ts) s2

/-- The declared operand list of each kind, in the order of the table of the
spec (section 3). -/
def operandSlots : Kind Slot → List Slot
  | .Variable => []
  | .Pool in_ => [in_]
  | .LocalResponseNormalization in_ => [in_]
  | .Relu in_ => [in_]
  | .Reshape in_ => [in_]
  | .Transpose in_ => [in_]
  | .Sigmoid in_ => [in_]
  | .Tanh in_ => [in_]
  | .Return in_ => [in_]
  | .Convolution in_ filter_ bias_ => [in_, filter_, bias_]
  | .FullyConnected in_ filter_ bias_ => [in_, filter_, bias_]
  | .BatchNormalization in_ scale_ bias_ mean_ var_ => [in_, scale_, bias_, mean_, var_]
  | .Arithmetic LHS_ RHS_ => [LHS_, RHS_]
  | .SoftMax in_ selected_ => [in_, selected_]
  | .Regression in_ expected_ => [in_, expected_]
  | .Concat in_ => in_

/-- The generic protocol of the spec (4.4): if `shouldVisit(P, N)` then
`pre(P, N)`, a visit of each operand of the list with caller `N`, `post(P, N)`. -/
def genericVisit (V : NodeVisitor σ Node) (g : Wiring Node Slot)
    (visit : Option Node → Node → Walk σ Node) (operands : List Slot)
    (parent : Option Node) (this : Node) : Walk σ Node :=
  guarded V parent this <|
    (callPre V parent this).seq <|
    (forEachVisit g visit this operands).seq <|
    callPost V parent this

/-- The `pre` and `post` calls of a sequence of hook calls. -/
def prePost (t : List (Hook Node)) : List (Hook Node) :=
  t.filter fun h => match h with
    | .shouldVisit _ _ => false
    | _ => true

end Visit

/-! ### A small concrete graph -/

/-- Node types of the example: nodes of equal parity have the same type. -/
def demoType (n : Nat) : Nat := n % 2

/-- Node classes of the example: node 0 is an arithmetic node with operand slots
0 and 1, node 1 a fully-connected node with slots 2, 3, 4, node 2 a concat node
with slots 5, 6, 7; every other node is a variable. -/
def demoKind : Nat → Kind Nat
  | 0 => .Arithmetic 0 1
  | 1 => .FullyConnected 2 3 4
  | 2 => .Concat [5, 6, 7]
  | _ => .Variable

/-- Wiring of the example, built by `setOperand` calls from the empty wiring:
the arithmetic node uses variable 10 in both of its slots. -/
def demoWiring : Wiring Nat Nat :=
  (runOperandCalls (Wiring.empty Nat Nat)
    [(0, some 10), (1, some 10), (2, some 0), (3, some 10), (4, some 11),
     (5, some 10), (6, some 11), (7, some 12)]).state

/-- Visitor of the example: its state counts the hook calls; it declines to
visit node 11. -/
def demoVisitor : NodeVisitor Nat Nat :=
  { shouldVisit := fun _ n s => (n != 11, s + 1)
    pre := fun _ _ s => s + 1
    post := fun _ _ s => s + 1 }

/-! ### Invariants of the edge slots -/

section EdgeSlotInvariants
variable {Node Slot Ty : Type} [DecidableEq Node] [DecidableEq Slot] [DecidableEq Ty]

/-- The use-site identity invariant, in the three forms of the spec: a use list
names a slot exactly once if the slot holds the node and not at all otherwise;
no use list names a slot twice; every entry names a slot that holds the node. -/
def UseSiteIdentity (g : Wiring Node Slot) : Prop :=
  (∀ (S : Slot) (N : Node),
    (g.users_ N).count ⟨S⟩ = if g.node_ S = some N then 1 else 0) ∧
  (∀ N : Node, (g.users_ N).Nodup) ∧
  (∀ (N : Node) (U : NodeUse Slot), U ∈ g.users_ N → g.node_ U.site_ = some N)

/-- The calls `setOperand(B)` for the nodes `B` of `args`, in order, all on the
one slot `S`. -/
def callsOn (S : Slot) (args : List Node) : List (Slot × Option Node) :=
  args.map fun B => (S, some B)

end EdgeSlotInvariants

/-! ### Graph structure, paths and hook counts -/

section GraphShape

variable {σ Node Slot : Type}

/-- The generic protocol of the spec (4.4) as one recursive procedure: every
node, of whatever kind, is walked by `genericVisit` over its declared operand
list, and so are its operands. -/
def protocolVisit (V : NodeVisitor σ Node) (kindOf : Node → Kind Slot) (g : Wiring Node Slot) :
    Nat → Option Node → Node → Walk σ Node
  | 0, _, _ => fun _ => .error .outOfFuel
  | fuel + 1, parent, this =>
    genericVisit V g (protocolVisit V kindOf g fuel) (operandSlots (kindOf this)) parent this

/-- Node `n` is held by one of the operand slots of `N`: an edge of the graph. -/
def Edge (kindOf : Node → Kind Slot) (g : Wiring Node Slot) (N n : Node) : Prop :=
  ∃ s ∈ operandSlots (kindOf N), g.node_ s = some n

/-- Node `M` is reachable from `N` along edges (every node reaches itself). -/
def Reaches (kindOf : Node → Kind Slot) (g : Wiring Node Slot) : Node → Node → Prop :=
  Relation.ReflTransGen (Edge kindOf g)

/-- No node reaches itself along one or more edges. -/
def Acyclic (kindOf : Node → Kind Slot) (g : Wiring Node Slot) : Prop :=
  ∀ N, ¬ Relation.TransGen (Edge kindOf g) N N

/-- Every operand slot of every node holds a node. -/
def Wired (kindOf : Node → Kind Slot) (g : Wiring Node Slot) : Prop :=
  ∀ N, ∀ s ∈ operandSlots (kindOf N), g.node_ s ≠ none

/-- Every operand slot of every node reachable from `R` holds a node. -/
def WiredFrom (kindOf : Node → Kind Slot) (g : Wiring Node Slot) (R : Node) : Prop :=
  ∀ N, Reaches kindOf g R N → ∀ s ∈ operandSlots (kindOf N), g.node_ s ≠ none

/-- The operand slots of a node are distinct objects. -/
def SlotsDistinct (kindOf : Node → Kind Slot) : Prop :=
  ∀ N, (operandSlots (kindOf N)).Nodup

/-- A path from a node to a node, as the list of the operand slots it goes
through: the first is an operand slot of the start, each next one an operand
slot of the node the previous one holds, and the last one holds the end. -/
inductive IsPath (kindOf : Node → Kind Slot) (g : Wiring Node Slot) :
    Node → List Slot → Node → Prop where
  | nil (N : Node) : IsPath kindOf g N [] N
  | cons {N n M : Node} {s : Slot} {p : List Slot} :
      s ∈ operandSlots (kindOf N) → g.node_ s = some n → IsPath kindOf g n p M →
      IsPath kindOf g N (s :: p) M

/-- The paths from `R` to `M` through fewer than `k` slots, listed. -/
def pathsTo [DecidableEq Node] (kindOf : Node → Kind Slot) (g : Wiring Node Slot) :
    Nat → Node → Node → List (List Slot)
  | 0, _, _ => []
  | k + 1, R, M =>
    (if R = M then [[]] else []) ++
      (operandSlots (kindOf R)).flatMap fun s =>
        match g.node_ s with
        | some n => (pathsTo kindOf g k n M).map fun p => s :: p
        | none => []

/-- The number of `pre(·, M)` calls in a sequence of hook calls. -/
def preCount [DecidableEq Node] (M : Node) (t : List (Hook Node)) : Nat :=
  t.countP fun h => match h with
    | .pre _ n => decide (n = M)
    | _ => false

/-- The number of `post(·, M)` calls in a sequence of hook calls. -/
def postCount [DecidableEq Node] (M : Node) (t : List (Hook Node)) : Nat :=
  t.countP fun h => match h with
    | .post _ n => decide (n = M)
    | _ => false

/-- Bracket matching with a stack: `pre(Q, M)` opens a bracket, `post(Q, M)` must
close the bracket opened last, with the same arguments; at the end no bracket
is open.  Calls of `shouldVisit` are passed over. -/
def bracketed [DecidableEq Node] : List (Option Node × Node) → List (Hook Node) → Bool
  | stack, [] => stack.isEmpty
  | stack, .shouldVisit _ _ :: t => bracketed stack t
  | stack, .pre Q M :: t => bracketed ((Q, M) :: stack) t
  | [], .post _ _ :: _ => false
  | top :: stack, .post Q M :: t => decide (top = (Q, M)) && bracketed stack t

/-- A visitor whose `shouldVisit` always answers true. -/
def AlwaysVisits (V : NodeVisitor σ Node) : Prop :=
  ∀ P N s, (V.shouldVisit P N s).1 = true

/-- A visitor that keeps a visited set, read off its state by `seen`:
`shouldVisit(P, N)` answers true exactly when `N` is not in the set and puts `N`
in the set; `pre` and `post` leave the set alone. -/
def Dedups [DecidableEq Node] (V : NodeVisitor σ Node) (seen : σ → Finset Node) : Prop :=
  (∀ P N s, ((V.shouldVisit P N s).1 = true ↔ N ∉ seen s) ∧
    seen (V.shouldVisit P N s).2 = insert N (seen s)) ∧
  (∀ P N s, seen (V.pre P N s) = seen s) ∧
  (∀ P N s, seen (V.post P N s) = seen s)

end GraphShape


section DedupDefs
variable {σ Node Slot : Type}

/-- What a walk with a visited set has done when the set grew from `S` to `S1`
and the hook calls `t` were made: the set only grew; every new member comes from
one of the sources `src`; every operand of a new member is in the set; and `pre`
and `post` were each called once for every new member and for no other node. -/
def Fresh [DecidableEq Node] (kindOf : Node → Kind Slot) (g : Wiring Node Slot)
    (src : Node → Prop) (S S1 : Finset Node) (t : List (Hook Node)) : Prop :=
  S ⊆ S1 ∧
  (∀ x ∈ S1, x ∉ S → ∃ c, src c ∧ Reaches kindOf g c x) ∧
  (∀ x ∈ S1, x ∉ S → ∀ y, Edge kindOf g x y → y ∈ S1) ∧
  (∀ M, preCount M t = if M ∈ S1 ∧ M ∉ S then 1 else 0) ∧
  (∀ M, postCount M t = if M ∈ S1 ∧ M ∉ S then 1 else 0)

end DedupDefs

/-! ### A small acyclic graph with a shared node -/

/-- Node classes of the diamond: node 0 is an arithmetic node with operand slots
0 and 1, nodes 1 and 2 are relu nodes with slots 2 and 3, node 3 is a variable. -/
def diamondKind : Fin 4 → Kind (Fin 4)
  | 0 => .Arithmetic 0 1
  | 1 => .Relu 2
  | 2 => .Relu 3
  | 3 => .Variable

/-- Wiring of the diamond, built by `setOperand` calls from the empty wiring:
node 0 uses nodes 1 and 2, which both use node 3. -/
def diamondWiring : Wiring (Fin 4) (Fin 4) :=
  (runOperandCalls (Wiring.empty (Fin 4) (Fin 4))
    [(0, some 1), (1, some 2), (2, some 3), (3, some 3)]).state

/-- A visitor that visits every node; its state counts the hook calls. -/
def countingVisitor : NodeVisitor Nat (Fin 4) :=
  { shouldVisit := fun _ _ s => (true, s + 1)
    pre := fun _ _ s => s + 1
    post := fun _ _ s => s + 1 }

/-- A visitor with a visited set: its state is the set of nodes it was asked
about. -/
def dedupVisitor : NodeVisitor (Finset (Fin 4)) (Fin 4) :=
  { shouldVisit := fun _ n s => (decide (n ∉ s), insert n s)
    pre := fun _ _ s => s
    post := fun _ _ s => s }

/-! ## Theorems -/

section EdgeSlotFacts

variable {Node Slot Ty : Type} [DecidableEq Node] [DecidableEq Slot] [DecidableEq Ty]

theorem setOperand_same (g : Wiring Node Slot) (S : Slot) (v : Option Node)
    (h : g.node_ S = v) : NodeOperand.setOperand g S v = .returned g := by
  simp [NodeOperand.setOperand, h]

theorem setOperand_fields (g : Wiring Node Slot) (S : Slot) (v : Option Node)
    (hf : Found g S) :
    ∃ g1, NodeOperand.setOperand g S v = .returned g1 ∧
      (∀ S0, g1.node_ S0 = if S0 = S then v else g.node_ S0) ∧
      (∀ N, g1.users_ N =
        if g.node_ S = v then g.users_ N
        else if g.node_ S = some N then (g.users_ N).erase ⟨S⟩
        else if v = some N then g.users_ N ++ [⟨S⟩]
        else g.users_ N) := by
  unfold NodeOperand.setOperand
  by_cases hv : g.node_ S = v
  · refine ⟨g, by simp [hv], ?_, by simp [hv]⟩
    intro S0
    by_cases hS : S0 = S
    · subst hS; simp [hv]
    · simp [hS]
  · rw [if_neg hv]
    cases hA : g.node_ S with
    | none =>
      cases v with
      | none => exact absurd hA hv
      | some B =>
        refine ⟨_, by simp [NodeOperand.dropOld, hA, Outcome.andThen, NodeOperand.takeNew]; rfl, ?_, ?_⟩
        · intro S0
          by_cases hS : S0 = S <;> simp [Function.update, hS, hA]
        · intro N
          by_cases hN : B = N
          · subst hN; simp [Function.update, addUse]
          · have : N ≠ B := fun h => hN h.symm
            simp [Function.update, hN, this]
    | some A =>
      have hmem := hf A hA
      cases v with
      | none =>
        refine ⟨_, by simp [NodeOperand.dropOld, hA, removeUse, hmem, Outcome.andThen, NodeOperand.takeNew]; rfl, ?_, ?_⟩
        · intro S0
          by_cases hS : S0 = S <;> simp [Function.update, hS, hA]
        · intro N
          by_cases hN : A = N
          · subst hN; simp [Function.update]
          · have : N ≠ A := fun h => hN h.symm
            simp [Function.update, hN, this]
      | some B =>
        have hAB : A ≠ B := fun h => hv (by rw [hA, h])
        refine ⟨_, by simp [NodeOperand.dropOld, hA, removeUse, hmem, Outcome.andThen, NodeOperand.takeNew]; rfl, ?_, ?_⟩
        · intro S0
          by_cases hS : S0 = S <;> simp [Function.update, hS, hA]
        · intro N
          by_cases hN : A = N
          · subst hN
            have : ¬ (A = B) := hAB
            simp [Function.update, this, hAB]
          · have hNA : N ≠ A := fun h => hN h.symm
            by_cases hB : B = N
            · subst hB; simp [Function.update, hNA, addUse, hN]
            · have hNB : N ≠ B := fun h => hB h.symm
              simp [Function.update, hN, hNA, hB, hNB]


theorem setOperand_not_typeMismatch (g g1 : Wiring Node Slot) (S : Slot) (v : Option Node) :
    NodeOperand.setOperand g S v ≠ .aborted .typeMismatch g1 := by
  unfold NodeOperand.setOperand NodeOperand.dropOld NodeOperand.takeNew Outcome.andThen
  split_ifs
  · simp
  · cases hA : g.node_ S with
    | none => cases v <;> simp
    | some A =>
      cases hr : removeUse (g.users_ A) ⟨S⟩ with
      | none => simp [hr]
      | some us => cases v <;> simp [hr]

theorem setOperand_notFound (g : Wiring Node Slot) (S : Slot) (v : Option Node) (A : Node)
    (hA : g.node_ S = some A) (hv : v ≠ some A) (hn : (⟨S⟩ : NodeUse Slot) ∉ g.users_ A) :
    NodeOperand.setOperand g S v = .aborted .useNotFound g := by
  have : ¬ (some A = v) := fun h => hv h.symm
  simp [NodeOperand.setOperand, hA, this, NodeOperand.dropOld, removeUse, hn, Outcome.andThen]

theorem consistent_found {g : Wiring Node Slot} (hc : Consistent g) (S : Slot) : Found g S := by
  intro A hA
  have := hc A S
  rw [if_pos hA] at this
  exact List.count_pos_iff.mp (by omega)

theorem consistent_setOperand {g : Wiring Node Slot} (hc : Consistent g) (S : Slot)
    (v : Option Node) :
    ∃ g1, NodeOperand.setOperand g S v = .returned g1 ∧ Consistent g1 := by
  obtain ⟨g1, hr, hn, hu⟩ := setOperand_fields g S v (consistent_found hc S)
  refine ⟨g1, hr, ?_⟩
  intro N S0
  rw [hn S0, hu N]
  by_cases hv : g.node_ S = v
  · rw [if_pos hv]
    by_cases hS : S0 = S
    · subst hS; rw [if_pos rfl, ← hv]; exact hc N S0
    · rw [if_neg hS]; exact hc N S0
  · rw [if_neg hv]
    have hcN := hc N
    by_cases hA : g.node_ S = some N
    · rw [if_pos hA, List.count_erase]
      have hvN : v ≠ some N := fun h => hv (by rw [hA, h])
      by_cases hS : S0 = S
      · subst hS
        have := hcN S0
        simp [hA, hvN] at this ⊢
        omega
      · have hne : (⟨S0⟩ : NodeUse Slot) ≠ ⟨S⟩ := fun h => hS (by injection h)
        have hS2 : ¬ (S = S0) := fun h => hS h.symm
        have := hcN S0
        simp [hS, hS2, hne] at this ⊢
        exact this
    · rw [if_neg hA]
      by_cases hB : v = some N
      · rw [if_pos hB, List.count_append]
        by_cases hS : S0 = S
        · subst hS
          have := hcN S0
          simp [hA, hB] at this ⊢
          exact this
        · have hne : (⟨S0⟩ : NodeUse Slot) ≠ ⟨S⟩ := fun h => hS (by injection h)
          have := hcN S0
          simp [hS, hne] at this ⊢
          exact this
      · rw [if_neg hB]
        by_cases hS : S0 = S
        · subst hS
          have := hcN S0
          simp [hA, hB] at this ⊢
          exact this
        · rw [if_neg hS]; exact hcN S0

theorem consistent_empty : Consistent (Wiring.empty Node Slot) := by
  intro N S
  simp [Wiring.empty]

theorem consistent_runOperandCalls {g : Wiring Node Slot} (hc : Consistent g)
    (calls : List (Slot × Option Node)) :
    ∃ g1, runOperandCalls g calls = .returned g1 ∧ Consistent g1 := by
  induction calls generalizing g with
  | nil => exact ⟨g, rfl, hc⟩
  | cons c cs ih =>
    obtain ⟨g1, h1, hc1⟩ := consistent_setOperand hc c.1 c.2
    obtain ⟨g2, h2, hc2⟩ := ih hc1
    exact ⟨g2, by simp [runOperandCalls, h1, Outcome.andThen, h2], hc2⟩

theorem consistent_numUsers_eq [Fintype Slot] {g : Wiring Node Slot} (hc : Consistent g)
    (N : Node) : numUsers g N = slotsHolding g N := by
  unfold numUsers slotsHolding
  have hnd : (g.users_ N).Nodup := by
    rw [List.nodup_iff_count_le_one]
    intro U
    have := hc N U.site_
    have hU : (⟨U.site_⟩ : NodeUse Slot) = U := rfl
    rw [hU] at this
    split_ifs at this <;> omega
  rw [← List.toFinset_card_of_nodup hnd]
  have hmap : (g.users_ N).toFinset.map ⟨NodeUse.site_, fun a b h => by cases a; cases b; simp_all⟩
      = Finset.univ.filter fun S => g.node_ S = some N := by
    ext S
    simp only [Finset.mem_map, List.mem_toFinset, Function.Embedding.coeFn_mk,
      Finset.mem_filter, Finset.mem_univ, true_and]
    constructor
    · rintro ⟨U, hU, rfl⟩
      have := hc N U.site_
      have hpos : 0 < (g.users_ N).count ⟨U.site_⟩ := List.count_pos_iff.mpr hU
      by_contra hne
      rw [if_neg hne] at this
      omega
    · intro hS
      have := hc N S
      rw [if_pos hS] at this
      exact ⟨⟨S⟩, List.count_pos_iff.mp (by omega), rfl⟩
  rw [← hmap, Finset.card_map]


theorem checked_mismatch (getType : Node → Ty) (g : Wiring Node Slot) (S : Slot)
    (A B : Node) (hA : g.node_ S = some A) (hT : getType B ≠ getType A) :
    NodeUse.setOperand getType g ⟨S⟩ (some B) = .aborted .typeMismatch g := by
  have : ¬ (getType A = getType B) := fun h => hT h.symm
  simp [NodeUse.setOperand, hA, this]

theorem checked_eq_raw (getType : Node → Ty) (g : Wiring Node Slot) (S : Slot)
    (other : Option Node)
    (hT : ∀ A B, g.node_ S = some A → other = some B → getType B = getType A) :
    NodeUse.setOperand getType g ⟨S⟩ other = NodeOperand.setOperand g S other := by
  unfold NodeUse.setOperand
  cases other with
  | none => rfl
  | some B =>
    cases hA : g.node_ S with
    | none => simp [hA]
    | some A => simp [hA, (hT A B hA rfl).symm]

theorem checked_cases (getType : Node → Ty) (g : Wiring Node Slot) (S : Slot)
    (other : Option Node) :
    NodeUse.setOperand getType g ⟨S⟩ other = NodeOperand.setOperand g S other ∨
    NodeUse.setOperand getType g ⟨S⟩ other = .aborted .typeMismatch g := by
  by_cases hT : ∀ A B, g.node_ S = some A → other = some B → getType B = getType A
  · exact Or.inl (checked_eq_raw getType g S other hT)
  · push_neg at hT
    obtain ⟨A, B, hA, hB, hne⟩ := hT
    subst hB
    exact Or.inr (checked_mismatch getType g S A B hA hne)

theorem consistent_state_setOperand {g : Wiring Node Slot} (hc : Consistent g) (S : Slot)
    (v : Option Node) : Consistent (NodeOperand.setOperand g S v).state := by
  obtain ⟨g1, h1, hc1⟩ := consistent_setOperand hc S v
  rw [h1]; exact hc1

theorem consistent_state_runOperandCalls {g : Wiring Node Slot} (hc : Consistent g)
    (calls : List (Slot × Option Node)) : Consistent (runOperandCalls g calls).state := by
  obtain ⟨g1, h1, hc1⟩ := consistent_runOperandCalls hc calls
  rw [h1]; exact hc1

theorem consistent_state_runUseCalls (getType : Node → Ty) {g : Wiring Node Slot}
    (hc : Consistent g) (calls : List (Slot × Option Node)) :
    Consistent (runUseCalls getType g calls).state := by
  induction calls generalizing g with
  | nil => exact hc
  | cons c cs ih =>
    rcases checked_cases getType g c.1 c.2 with h | h
    · obtain ⟨g1, h1, hc1⟩ := consistent_setOperand hc c.1 c.2
      simp only [runUseCalls, h, h1, Outcome.andThen]
      exact ih hc1
    · simp only [runUseCalls, h, Outcome.andThen, Outcome.state]
      exact hc

theorem setOperand_frame_raw (g : Wiring Node Slot) (S : Slot) (v : Option Node) :
    Frame g S v (NodeOperand.setOperand g S v).state := by
  by_cases hf : Found g S
  · obtain ⟨g1, h1, hn, hu⟩ := setOperand_fields g S v hf
    rw [h1]
    simp only [Outcome.state]
    refine ⟨?_, ?_, ?_, ?_⟩
    · intro N hA hB
      rw [hu N, if_neg hA, if_neg hB]; simp
    · intro S1 h; rw [hn S1, if_neg h]
    · intro N hlt
      by_contra hA
      unfold numUsers at hlt
      rw [hu N, if_neg hA] at hlt
      split_ifs at hlt <;> simp at hlt
    · intro N hlt
      by_contra hB
      unfold numUsers at hlt
      rw [hu N, if_neg hB] at hlt
      split_ifs at hlt
      · omega
      · have := List.length_erase_le (⟨S⟩ : NodeUse Slot) (g.users_ N)
        omega
      · omega
  · have hst : (NodeOperand.setOperand g S v).state = g := by
      unfold Found at hf
      push_neg at hf
      obtain ⟨A, hA, hn⟩ := hf
      by_cases hv : v = some A
      · rw [setOperand_same g S v (by rw [hA, hv])]; rfl
      · rw [setOperand_notFound g S v A hA hv hn]; rfl
    rw [hst]
    exact ⟨fun _ _ _ => rfl, fun _ _ => rfl, fun N h => absurd h (lt_irrefl _),
      fun N h => absurd h (lt_irrefl _)⟩

/-- C1 (use-list consistency).  Starting from the graph with all slots empty and
all use lists empty, every finite sequence of `NodeOperand::setOperand` calls, on
arbitrary slots with arbitrary arguments (nodes or null), runs to its end, and in
the state it leaves the number of use-sites recorded on each node `N` equals the
number of slots of the whole graph that hold `N`.  The same equality holds in the
state left by every sequence of type-checked `NodeUse::setOperand` calls, whether
the sequence ran to its end or was stopped by the type assertion.  As every
initial part of a sequence is a sequence, the equality holds at every point. -/
theorem useList_consistency [Fintype Slot] (getType : Node → Ty)
    (calls : List (Slot × Option Node)) :
    (∃ g1, runOperandCalls (Wiring.empty Node Slot) calls = .returned g1 ∧
      ∀ N, numUsers g1 N = slotsHolding g1 N) ∧
    (∀ N, numUsers (runUseCalls getType (Wiring.empty Node Slot) calls).state N =
      slotsHolding (runUseCalls getType (Wiring.empty Node Slot) calls).state N) := by
  refine ⟨?_, ?_⟩
  · have h0 : Consistent (Wiring.empty Node Slot) := consistent_empty
    obtain ⟨g1, h1, hc1⟩ := consistent_runOperandCalls h0 calls
    exact ⟨g1, h1, fun N => consistent_numUsers_eq hc1 N⟩
  · intro N
    exact consistent_numUsers_eq (consistent_state_runUseCalls getType consistent_empty calls) N

/-- C2 (type-mismatch rejection, no partial mutation).  If slot `S` holds `A` and
the output type of `B` differs from that of `A`, then `NodeUse::setOperand(B)` on
`S` stops on its type assertion in the unchanged graph state: `S` still holds `A`
and the use list of every node is what it was before the call. -/
theorem typeMismatch_rejected (getType : Node → Ty) (g : Wiring Node Slot) (S : Slot)
    (A B : Node) (hA : g.node_ S = some A) (hT : getType B ≠ getType A) :
    NodeUse.setOperand getType g ⟨S⟩ (some B) = .aborted .typeMismatch g ∧
    (NodeUse.setOperand getType g ⟨S⟩ (some B)).state.node_ S = some A ∧
    ∀ N, (NodeUse.setOperand getType g ⟨S⟩ (some B)).state.users_ N = g.users_ N := by
  have h := checked_mismatch getType g S A B hA hT
  rw [h]
  exact ⟨rfl, hA, fun _ => rfl⟩

/-- An instance of `typeMismatch_rejected`: slot 0 of the example holds node 10
(even type) and is asked to take node 11 (odd type). -/
theorem typeMismatch_rejected_witness :
    NodeUse.setOperand demoType demoWiring ⟨0⟩ (some 11) = .aborted .typeMismatch demoWiring ∧
    (NodeUse.setOperand demoType demoWiring ⟨0⟩ (some 11)).state.node_ 0 = some 10 ∧
    ∀ N, (NodeUse.setOperand demoType demoWiring ⟨0⟩ (some 11)).state.users_ N =
      demoWiring.users_ N :=
  typeMismatch_rejected demoType demoWiring 0 10 11 rfl (by decide)

/-- C3 (clean rewiring).  If slot `S` holds `A`, with its use-site on the list of
`A` (as in every state built by `setOperand` calls, see
`consistent_runOperandCalls` and `consistent_found`), and `B` is another node with
the same output type, then `setOperand(B)` on `S`, type-checked or raw, returns;
afterwards `A` has exactly one use-site less, `B` exactly one more, and `S` holds
`B`. -/
theorem clean_rewiring (getType : Node → Ty) (g : Wiring Node Slot) (S : Slot) (A B : Node)
    (hA : g.node_ S = some A) (hS : (⟨S⟩ : NodeUse Slot) ∈ g.users_ A)
    (hAB : B ≠ A) (hT : getType B = getType A) :
    ∃ g1, NodeUse.setOperand getType g ⟨S⟩ (some B) = .returned g1 ∧
      NodeOperand.setOperand g S (some B) = .returned g1 ∧
      numUsers g1 A + 1 = numUsers g A ∧
      numUsers g1 B = numUsers g B + 1 ∧
      g1.node_ S = some B := by
  have hf : Found g S := by
    intro A1 hA1
    rw [hA] at hA1
    cases hA1
    exact hS
  obtain ⟨g1, h1, hn, hu⟩ := setOperand_fields g S (some B) hf
  have hraw := checked_eq_raw getType g S (some B) (by
    intro A1 B1 hA1 hB1
    rw [hA] at hA1
    cases hA1; cases hB1
    exact hT)
  have hv : ¬ (g.node_ S = some B) := by
    rw [hA]; intro h; cases h; exact hAB rfl
  have hBA : ¬ (g.node_ S = some B) := hv
  refine ⟨g1, by rw [hraw, h1], h1, ?_, ?_, ?_⟩
  · unfold numUsers
    rw [hu A, if_neg hv, if_pos hA, List.length_erase_of_mem hS]
    have := List.length_pos_of_mem hS
    omega
  · unfold numUsers
    rw [hu B, if_neg hv, if_neg hBA, if_pos rfl]
    simp
  · rw [hn S, if_pos rfl]

/-- An instance of `clean_rewiring`: slot 0 of the example is rewired from node
10 to node 12, of the same type. -/
theorem clean_rewiring_witness :
    ∃ g1, NodeUse.setOperand demoType demoWiring ⟨0⟩ (some 12) = .returned g1 ∧
      NodeOperand.setOperand demoWiring 0 (some 12) = .returned g1 ∧
      numUsers g1 10 + 1 = numUsers demoWiring 10 ∧
      numUsers g1 12 = numUsers demoWiring 12 + 1 ∧
      g1.node_ 0 = some 12 :=
  clean_rewiring demoType demoWiring 0 10 12 rfl (by decide) (by decide) rfl


/-- C4 (idempotent rewiring).  For every slot `S`, holding a node or empty,
`setOperand` with the value that `S` already holds returns and leaves the whole
graph state unchanged, through the raw `NodeOperand::setOperand` as well as
through the type-checked `NodeUse::setOperand`. -/
theorem idempotent_rewiring (getType : Node → Ty) (g : Wiring Node Slot) (S : Slot) :
    NodeOperand.setOperand g S (g.node_ S) = .returned g ∧
    NodeUse.setOperand getType g ⟨S⟩ (g.node_ S) = .returned g := by
  have h := setOperand_same g S (g.node_ S) rfl
  refine ⟨h, ?_⟩
  rw [checked_eq_raw getType g S (g.node_ S) (by
    intro A B hA hB
    rw [hA] at hB
    cases hB; rfl)]
  exact h

/-- C5 (clearing).  If slot `S` holds `A`, with its use-site on the list of `A`,
then `setOperand(null)` on `S` returns, the use list of `A` is the old one with
the entry naming `S` erased (so exactly one entry shorter), and `S` is empty; a
second `setOperand(null)` on `S` returns and changes nothing in the graph
state.  This holds for the raw and for the type-checked operation. -/
theorem clearing (getType : Node → Ty) (g : Wiring Node Slot) (S : Slot) (A : Node)
    (hA : g.node_ S = some A) (hS : (⟨S⟩ : NodeUse Slot) ∈ g.users_ A) :
    ∃ g1, NodeOperand.setOperand g S none = .returned g1 ∧
      NodeUse.setOperand getType g ⟨S⟩ none = .returned g1 ∧
      g1.users_ A = (g.users_ A).erase ⟨S⟩ ∧
      numUsers g1 A + 1 = numUsers g A ∧
      g1.node_ S = none ∧
      NodeOperand.setOperand g1 S none = .returned g1 ∧
      NodeUse.setOperand getType g1 ⟨S⟩ none = .returned g1 := by
  obtain ⟨g1, h1, hn, hu⟩ := setOperand_fields g S none (by
    intro A1 hA1
    rw [hA] at hA1
    cases hA1
    exact hS)
  have hv : ¬ (g.node_ S = none) := by rw [hA]; simp
  have hS1 : g1.node_ S = none := by rw [hn S, if_pos rfl]
  have hUA : g1.users_ A = (g.users_ A).erase ⟨S⟩ := by rw [hu A, if_neg hv, if_pos hA]
  have h2 := setOperand_same g1 S none hS1
  refine ⟨g1, h1, ?_, hUA, ?_, hS1, h2, ?_⟩
  · rw [checked_eq_raw getType g S none (fun _ _ _ h => nomatch h)]; exact h1
  · unfold numUsers
    rw [hUA, List.length_erase_of_mem hS]
    have := List.length_pos_of_mem hS
    omega
  · rw [checked_eq_raw getType g1 S none (fun _ _ _ h => nomatch h)]; exact h2

/-- An instance of `clearing`: slot 0 of the example, holding node 10, is
cleared. -/
theorem clearing_witness :
    ∃ g1, NodeOperand.setOperand demoWiring 0 none = .returned g1 ∧
      NodeUse.setOperand demoType demoWiring ⟨0⟩ none = .returned g1 ∧
      g1.users_ 10 = (demoWiring.users_ 10).erase ⟨0⟩ ∧
      numUsers g1 10 + 1 = numUsers demoWiring 10 ∧
      g1.node_ 0 = none ∧
      NodeOperand.setOperand g1 0 none = .returned g1 ∧
      NodeUse.setOperand demoType g1 ⟨0⟩ none = .returned g1 :=
  clearing demoType demoWiring 0 10 rfl (by decide)

/-- C6 (multi-edge removal precision).  In a consistent graph state, if two
distinct slots `S1` and `S2` (in particular two operand slots of one consumer)
both hold `A`, then clearing or rewiring `S1` (any argument other than `A`)
returns, `A` has exactly one use-site less, `S2` still holds `A`, and the list of
`A` still has the entry naming `S2` and no entry naming `S1`.  The type-checked
operation agrees whenever the new node, if any, has the type of `A`. -/
theorem multiEdge_removal (getType : Node → Ty) (g : Wiring Node Slot) (hc : Consistent g)
    (S1 S2 : Slot) (A : Node) (h12 : S1 ≠ S2)
    (h1 : g.node_ S1 = some A) (h2 : g.node_ S2 = some A)
    (v : Option Node) (hv : v ≠ some A) :
    ∃ g1, NodeOperand.setOperand g S1 v = .returned g1 ∧
      ((∀ B, v = some B → getType B = getType A) →
        NodeUse.setOperand getType g ⟨S1⟩ v = .returned g1) ∧
      numUsers g1 A + 1 = numUsers g A ∧
      g1.node_ S2 = some A ∧
      (⟨S2⟩ : NodeUse Slot) ∈ g1.users_ A ∧
      (⟨S1⟩ : NodeUse Slot) ∉ g1.users_ A := by
  have hm1 : (⟨S1⟩ : NodeUse Slot) ∈ g.users_ A := consistent_found hc S1 A h1
  obtain ⟨g1, hr, hn, hu⟩ := setOperand_fields g S1 v (consistent_found hc S1)
  have hne : ¬ (g.node_ S1 = v) := by rw [h1]; exact fun h => hv h.symm
  have hUA : g1.users_ A = (g.users_ A).erase ⟨S1⟩ := by rw [hu A, if_neg hne, if_pos h1]
  have hc1 : Consistent g1 := by
    have := consistent_state_setOperand hc S1 v
    rw [hr] at this
    exact this
  have hN2 : g1.node_ S2 = some A := by
    rw [hn S2, if_neg (fun h => h12 h.symm)]; exact h2
  have hN1 : g1.node_ S1 = v := by rw [hn S1, if_pos rfl]
  refine ⟨g1, hr, ?_, ?_, hN2, consistent_found hc1 S2 A hN2, ?_⟩
  · intro hT
    rw [checked_eq_raw getType g S1 v (by
      intro A1 B hA1 hB
      rw [h1] at hA1
      cases hA1
      exact hT B hB)]
    exact hr
  · unfold numUsers
    rw [hUA, List.length_erase_of_mem hm1]
    have := List.length_pos_of_mem hm1
    omega
  · intro hmem
    have := hc1 A S1
    rw [hN1, if_neg (fun h => hv h)] at this
    have hpos : 0 < (g1.users_ A).count ⟨S1⟩ := List.count_pos_iff.mpr hmem
    omega

/-- An instance of `multiEdge_removal`: slots 0 and 1 of the arithmetic node of
the example both hold node 10, and slot 0 is rewired to node 12. -/
theorem multiEdge_removal_witness :
    ∃ g1, NodeOperand.setOperand demoWiring 0 (some 12) = .returned g1 ∧
      NodeUse.setOperand demoType demoWiring ⟨0⟩ (some 12) = .returned g1 ∧
      numUsers g1 10 + 1 = numUsers demoWiring 10 ∧
      g1.node_ 1 = some 10 ∧
      (⟨1⟩ : NodeUse Nat) ∈ g1.users_ 10 ∧
      (⟨0⟩ : NodeUse Nat) ∉ g1.users_ 10 :=
  match multiEdge_removal demoType demoWiring
      (consistent_state_runOperandCalls consistent_empty _) 0 1 10
      (by decide) rfl rfl (some 12) (by decide) with
  | ⟨g1, h1, h2, h3⟩ => ⟨g1, h1, h2 (fun B hB => by cases hB; rfl), h3⟩

theorem setOperand_frame_checked (getType : Node → Ty) (g : Wiring Node Slot) (S : Slot)
    (v : Option Node) : Frame g S v (NodeUse.setOperand getType g ⟨S⟩ v).state := by
  rcases checked_cases getType g S v with h | h
  · rw [h]; exact setOperand_frame_raw g S v
  · rw [h]
    exact ⟨fun _ _ _ => rfl, fun _ _ => rfl, fun N h => absurd h (lt_irrefl _),
      fun N h => absurd h (lt_irrefl _)⟩

/-- C9 (frame of `setOperand`).  A call `setOperand(v)` on slot `S`, raw or
type-checked, leaves the use list of every node other than the old value of `S`
and `v` unchanged, leaves the held value of every other slot unchanged, shortens
no list but that of the old value and lengthens no list but that of `v`. -/
theorem setOperand_frame (getType : Node → Ty) (g : Wiring Node Slot) (S : Slot)
    (v : Option Node) :
    Frame g S v (NodeOperand.setOperand g S v).state ∧
    Frame g S v (NodeUse.setOperand getType g ⟨S⟩ v).state :=
  ⟨setOperand_frame_raw g S v, setOperand_frame_checked getType g S v⟩

/-- C10 (exact failure condition of the type check).  `NodeUse::setOperand(other)`
stops on its type assertion if and only if the slot holds a node, `other` is not
null, and the output type of `other` differs from that of the held node.  In
particular wiring into an empty slot returns for a producer of any type, and
`setOperand(null)` returns on every slot whose use-site is on the list of the
node it holds (every slot of a consistent graph state). -/
theorem typeCheck_exact (getType : Node → Ty) (g : Wiring Node Slot) (S : Slot)
    (other : Option Node) :
    ((∃ g1, NodeUse.setOperand getType g ⟨S⟩ other = .aborted .typeMismatch g1) ↔
      ∃ A B, g.node_ S = some A ∧ other = some B ∧ getType B ≠ getType A) ∧
    (g.node_ S = none → ∃ g1, NodeUse.setOperand getType g ⟨S⟩ other = .returned g1) ∧
    (Found g S → ∃ g1, NodeUse.setOperand getType g ⟨S⟩ none = .returned g1) := by
  refine ⟨⟨?_, ?_⟩, ?_, ?_⟩
  · rintro ⟨g1, h⟩
    by_contra hno
    push_neg at hno
    rw [checked_eq_raw getType g S other (fun A B hA hB => hno A B hA hB)] at h
    exact setOperand_not_typeMismatch g g1 S other h
  · rintro ⟨A, B, hA, hB, hne⟩
    subst hB
    exact ⟨g, checked_mismatch getType g S A B hA hne⟩
  · intro hE
    have hf : Found g S := by
      intro A hA
      rw [hE] at hA
      cases hA
    obtain ⟨g1, h1, _⟩ := setOperand_fields g S other hf
    refine ⟨g1, ?_⟩
    rw [checked_eq_raw getType g S other (by
      intro A B hA
      rw [hE] at hA
      cases hA)]
    exact h1
  · intro hf
    obtain ⟨g1, h1, _⟩ := setOperand_fields g S none hf
    refine ⟨g1, ?_⟩
    rw [checked_eq_raw getType g S none (fun _ _ _ h => nomatch h)]
    exact h1


/-- An instance of `typeCheck_exact`: slot 9 of the example is empty and takes a
node of any type; slot 0 holds node 10 and can be cleared. -/
theorem typeCheck_exact_witness :
    (∃ g1, NodeUse.setOperand demoType demoWiring ⟨9⟩ (some 11) = .returned g1) ∧
    (∃ g1, NodeUse.setOperand demoType demoWiring ⟨0⟩ none = .returned g1) :=
  ⟨(typeCheck_exact demoType demoWiring 9 (some 11)).2.1 rfl,
   (typeCheck_exact demoType demoWiring 0 none).2.2
     (consistent_found (consistent_state_runOperandCalls consistent_empty _) 0)⟩

end EdgeSlotFacts

section VisitFacts

variable {σ Node Slot : Type}

theorem seq_assoc (a b c : Walk σ Node) : (a.seq b).seq c = a.seq (b.seq c) := by
  funext s
  simp only [Walk.seq]
  cases a s with
  | error e => rfl
  | ok r1 =>
    simp only
    cases b r1.1 with
    | error e => rfl
    | ok r2 =>
      simp only
      cases c r2.1 with
      | error e => rfl
      | ok r3 => simp [List.append_assoc]

theorem skip_seq (b : Walk σ Node) : Walk.seq (fun s => .ok (s, [])) b = b := by
  funext s
  simp only [Walk.seq]
  cases b s with
  | error e => rfl
  | ok r => simp

theorem visit_eq_generic (V : NodeVisitor σ Node) (kindOf : Node → Kind Slot)
    (g : Wiring Node Slot) (fuel : Nat) (P : Option Node) (N : Node) :
    visit V kindOf g (fuel + 1) P N =
      genericVisit V g (visit V kindOf g fuel) (operandSlots (kindOf N)) P N := by
  rw [visit]
  cases kindOf N <;>
    simp only [operandSlots, genericVisit, Variable.visit, DEFINE_CLASS_VISITOR,
      ConvolutionNode.visit, FullyConnectedNode.visit, BatchNormalizationNode.visit,
      ArithmeticNode.visit, SoftMaxNode.visit, RegressionNode.visit, ConcatNode.visit,
      forEachVisit, seq_assoc, skip_seq]


theorem seq_ok {a b : Walk σ Node} {s : σ} {r1 r2 : σ × List (Hook Node)}
    (ha : a s = .ok r1) (hb : b r1.1 = .ok r2) :
    a.seq b s = .ok (r2.1, r1.2 ++ r2.2) := by
  simp [Walk.seq, ha, hb]

theorem seq_ok_inv {a b : Walk σ Node} {s : σ} {r : σ × List (Hook Node)}
    (h : a.seq b s = .ok r) :
    ∃ r1 r2, a s = .ok r1 ∧ b r1.1 = .ok r2 ∧ r = (r2.1, r1.2 ++ r2.2) := by
  simp only [Walk.seq] at h
  cases ha : a s with
  | error e => rw [ha] at h; cases h
  | ok r1 =>
    rw [ha] at h
    simp only at h
    cases hb : b r1.1 with
    | error e => rw [hb] at h; cases h
    | ok r2 =>
      rw [hb] at h
      simp only at h
      cases h
      exact ⟨r1, r2, rfl, hb, rfl⟩

theorem seq_mono {a a1 b b1 : Walk σ Node}
    (ha : ∀ s r, a s = .ok r → a1 s = .ok r) (hb : ∀ s r, b s = .ok r → b1 s = .ok r) :
    ∀ s r, a.seq b s = .ok r → a1.seq b1 s = .ok r := by
  intro s r h
  obtain ⟨r1, r2, h1, h2, rfl⟩ := seq_ok_inv h
  exact seq_ok (ha s r1 h1) (hb _ r2 h2)

theorem guarded_mono (V : NodeVisitor σ Node) (P : Option Node) (N : Node) {b b1 : Walk σ Node}
    (hb : ∀ s r, b s = .ok r → b1 s = .ok r) :
    ∀ s r, guarded V P N b s = .ok r → guarded V P N b1 s = .ok r := by
  intro s r h
  unfold guarded at h ⊢
  by_cases hsv : (V.shouldVisit P N s).1 = true
  · rw [if_pos hsv] at h ⊢
    cases hbs : b (V.shouldVisit P N s).2 with
    | error e => rw [hbs] at h; cases h
    | ok r1 =>
      rw [hbs] at h
      rw [hb _ r1 hbs]
      exact h
  · rw [if_neg hsv] at h ⊢
    exact h

theorem arrowVisit_mono (g : Wiring Node Slot) {f f1 : Option Node → Node → Walk σ Node}
    (hf : ∀ P N s r, f P N s = .ok r → f1 P N s = .ok r) (this : Node) (X_ : Slot) :
    ∀ s r, arrowVisit g f this X_ s = .ok r → arrowVisit g f1 this X_ s = .ok r := by
  intro s r h
  unfold arrowVisit at h ⊢
  cases hX : g.node_ X_ with
  | none => rw [hX] at h; cases h
  | some n =>
    rw [hX] at h
    exact hf _ _ _ _ h

theorem forEachVisit_mono (g : Wiring Node Slot) {f f1 : Option Node → Node → Walk σ Node}
    (hf : ∀ P N s r, f P N s = .ok r → f1 P N s = .ok r) (this : Node) (slots : List Slot) :
    ∀ s r, forEachVisit g f this slots s = .ok r → forEachVisit g f1 this slots s = .ok r := by
  induction slots with
  | nil => intro s r h; exact h
  | cons I rest ih =>
    intro s r h
    exact seq_mono (arrowVisit_mono g hf this I) ih s r h

theorem genericVisit_mono (V : NodeVisitor σ Node) (g : Wiring Node Slot)
    {f f1 : Option Node → Node → Walk σ Node}
    (hf : ∀ P N s r, f P N s = .ok r → f1 P N s = .ok r) (slots : List Slot)
    (P : Option Node) (N : Node) :
    ∀ s r, genericVisit V g f slots P N s = .ok r → genericVisit V g f1 slots P N s = .ok r := by
  unfold genericVisit
  exact guarded_mono V P N
    (seq_mono (fun _ _ h => h)
      (seq_mono (forEachVisit_mono g hf N slots) (fun _ _ h => h)))

theorem visit_mono_succ (V : NodeVisitor σ Node) (kindOf : Node → Kind Slot)
    (g : Wiring Node Slot) (fuel : Nat) :
    ∀ P N s r, visit V kindOf g fuel P N s = .ok r → visit V kindOf g (fuel + 1) P N s = .ok r := by
  induction fuel with
  | zero => intro P N s r h; simp [visit] at h
  | succ k ih =>
    intro P N s r h
    rw [visit_eq_generic] at h ⊢
    exact genericVisit_mono V g ih _ P N s r h

theorem visit_mono (V : NodeVisitor σ Node) (kindOf : Node → Kind Slot)
    (g : Wiring Node Slot) {fuel fuel1 : Nat} (hle : fuel ≤ fuel1) :
    ∀ P N s r, visit V kindOf g fuel P N s = .ok r → visit V kindOf g fuel1 P N s = .ok r := by
  induction hle with
  | refl => intro P N s r h; exact h
  | step _ ih => intro P N s r h; exact visit_mono_succ V kindOf g _ P N s r (ih P N s r h)

theorem completes_unique {V : NodeVisitor σ Node} {kindOf : Node → Kind Slot}
    {g : Wiring Node Slot} {P : Option Node} {N : Node} {s s1 : σ} {t : List (Hook Node)}
    (h : Completes V kindOf g P N s s1 t) (fuel : Nat) (r : σ × List (Hook Node))
    (hr : visit V kindOf g fuel P N s = .ok r) : r = (s1, t) := by
  obtain ⟨k, hk⟩ := h
  have h1 := visit_mono V kindOf g (Nat.le_max_left fuel k) P N s r hr
  have h2 := visit_mono V kindOf g (Nat.le_max_right fuel k) P N s _ hk
  rw [h1] at h2
  cases h2
  rfl

theorem subVisits_forEachVisit {V : NodeVisitor σ Node} {kindOf : Node → Kind Slot}
    {g : Wiring Node Slot} {this : Node} {nodes : List Node} {s s1 : σ}
    {ts : List (List (Hook Node))} (h : SubVisits V kindOf g this nodes s ts s1) :
    ∀ slots : List Slot, slots.map g.node_ = nodes.map some →
      ∃ fuel, ∀ k, fuel ≤ k →
        forEachVisit g (visit V kindOf g k) this slots s = .ok (s1, ts.flatten) := by
  induction h with
  | nil s =>
    intro slots hs
    cases slots with
    | nil => exact ⟨0, fun k _ => rfl⟩
    | cons a l => simp at hs
  | @cons n ns sa sb sc t ts hc _ ih =>
    intro slots hs
    cases slots with
    | nil => simp at hs
    | cons I rest =>
      simp only [List.map_cons, List.cons.injEq] at hs
      obtain ⟨f1, hf1⟩ := hc
      obtain ⟨f2, hf2⟩ := ih rest hs.2
      refine ⟨max f1 f2, fun k hk => ?_⟩
      have ha : arrowVisit g (visit V kindOf g k) this I sa = .ok (sb, t) := by
        unfold arrowVisit
        rw [hs.1]
        exact visit_mono V kindOf g (le_trans (Nat.le_max_left f1 f2) hk) _ _ _ _ hf1
      have hb := hf2 k (le_trans (Nat.le_max_right f1 f2) hk)
      simp only [forEachVisit]
      rw [seq_ok ha hb]
      simp

theorem visit_of_subVisits (V : NodeVisitor σ Node) (kindOf : Node → Kind Slot)
    (g : Wiring Node Slot) (P : Option Node) (N : Node) (s s1 s2 : σ)
    (nodes : List Node) (ts : List (List (Hook Node)))
    (hsv : V.shouldVisit P N s = (true, s1))
    (hw : (operandSlots (kindOf N)).map g.node_ = nodes.map some)
    (hsub : SubVisits V kindOf g N nodes (V.pre P N s1) ts s2) :
    Completes V kindOf g P N s (V.post P N s2)
      (.shouldVisit P N :: .pre P N :: (ts.flatten ++ [.post P N])) := by
  obtain ⟨fuel, hf⟩ := subVisits_forEachVisit hsub _ hw
  refine ⟨fuel + 1, ?_⟩
  rw [visit_eq_generic]
  have h1 := hf fuel le_rfl
  have h2 : ((forEachVisit g (visit V kindOf g fuel) N (operandSlots (kindOf N))).seq
      (callPost V P N)) (V.pre P N s1) = .ok (V.post P N s2, ts.flatten ++ [.post P N]) :=
    seq_ok h1 rfl
  have h3 : ((callPre V P N).seq
      ((forEachVisit g (visit V kindOf g fuel) N (operandSlots (kindOf N))).seq
        (callPost V P N))) s1 =
        .ok (V.post P N s2, .pre P N :: (ts.flatten ++ [.post P N])) :=
    @seq_ok σ Node (callPre V P N) _ s1 (V.pre P N s1, [.pre P N]) _ rfl h2
  unfold genericVisit guarded
  simp only [hsv, if_true]
  rw [h3]

theorem visit_pruned (V : NodeVisitor σ Node) (kindOf : Node → Kind Slot)
    (g : Wiring Node Slot) (fuel : Nat) (P : Option Node) (M : Node) (s s1 : σ)
    (hsv : V.shouldVisit P M s = (false, s1)) :
    visit V kindOf g (fuel + 1) P M s = .ok (s1, [.shouldVisit P M]) := by
  rw [visit_eq_generic]
  unfold genericVisit guarded
  simp [hsv]


theorem prePost_append (a b : List (Hook Node)) : prePost (a ++ b) = prePost a ++ prePost b := by
  simp [prePost]

theorem prePost_flatten (ts : List (List (Hook Node))) :
    prePost ts.flatten = (ts.map prePost).flatten := by
  induction ts with
  | nil => rfl
  | cons a l ih => simp [prePost_append, ih]

theorem subVisits_append {V : NodeVisitor σ Node} {kindOf : Node → Kind Slot}
    {g : Wiring Node Slot} {this : Node} {ns ms : List Node} {s s1 s2 : σ}
    {ts us : List (List (Hook Node))} (h1 : SubVisits V kindOf g this ns s ts s1)
    (h2 : SubVisits V kindOf g this ms s1 us s2) :
    SubVisits V kindOf g this (ns ++ ms) s (ts ++ us) s2 := by
  induction h1 with
  | nil s => exact h2
  | cons hc _ ih => exact SubVisits.cons hc (ih h2)

/-- C7 (traversal order).  Let `shouldVisit(P, N)` answer true.  If `N` is a
fully-connected node whose operands `in_`, `filter_`, `bias_` hold `i`, `f`, `b`
and the visits of `i`, then `f`, then `b`, each with caller `N` and each started
in the visitor state the previous step left, make the hook calls `t1`, `t2`,
`t3`, then `N.visit(P, visitor)` runs to its end and its hook calls are, after the
`shouldVisit(P, N)` query itself, exactly `pre(P, N)`, `t1`, `t2`, `t3`,
`post(P, N)`; no run of the call yields anything else.  If `N` is a concat node,
the visits of its inputs occur in index order between `pre(P, N)` and
`post(P, N)`.  The last conjunct of each part is the same sequence restricted to
`pre` and `post` calls. -/
theorem traversal_order (V : NodeVisitor σ Node) (kindOf : Node → Kind Slot)
    (g : Wiring Node Slot) (P : Option Node) (N : Node) (s s1 : σ)
    (hsv : V.shouldVisit P N s = (true, s1)) :
    (∀ (in_ filter_ bias_ : Slot) (i f b : Node) (s2 s3 s4 : σ) (t1 t2 t3 : List (Hook Node)),
      kindOf N = .FullyConnected in_ filter_ bias_ →
      g.node_ in_ = some i → g.node_ filter_ = some f → g.node_ bias_ = some b →
      Completes V kindOf g (some N) i (V.pre P N s1) s2 t1 →
      Completes V kindOf g (some N) f s2 s3 t2 →
      Completes V kindOf g (some N) b s3 s4 t3 →
      Completes V kindOf g P N s (V.post P N s4)
        (.shouldVisit P N :: .pre P N :: (t1 ++ t2 ++ t3 ++ [.post P N])) ∧
      (∀ fuel r, visit V kindOf g fuel P N s = .ok r →
        r = (V.post P N s4, .shouldVisit P N :: .pre P N :: (t1 ++ t2 ++ t3 ++ [.post P N]))) ∧
      prePost (.shouldVisit P N :: .pre P N :: (t1 ++ t2 ++ t3 ++ [.post P N])) =
        .pre P N :: (prePost t1 ++ prePost t2 ++ prePost t3 ++ [.post P N])) ∧
    (∀ (ins : List Slot) (nodes : List Node) (ts : List (List (Hook Node))) (s2 : σ),
      kindOf N = .Concat ins →
      ins.map g.node_ = nodes.map some →
      SubVisits V kindOf g N nodes (V.pre P N s1) ts s2 →
      Completes V kindOf g P N s (V.post P N s2)
        (.shouldVisit P N :: .pre P N :: (ts.flatten ++ [.post P N])) ∧
      (∀ fuel r, visit V kindOf g fuel P N s = .ok r →
        r = (V.post P N s2, .shouldVisit P N :: .pre P N :: (ts.flatten ++ [.post P N]))) ∧
      prePost (.shouldVisit P N :: .pre P N :: (ts.flatten ++ [.post P N])) =
        .pre P N :: ((ts.map prePost).flatten ++ [.post P N])) := by
  refine ⟨?_, ?_⟩
  · intro in_ filter_ bias_ i f b s2 s3 s4 t1 t2 t3 hk hi hf hb c1 c2 c3
    have hsub : SubVisits V kindOf g N [i, f, b] (V.pre P N s1) [t1, t2, t3] s4 :=
      .cons c1 (.cons c2 (.cons c3 (.nil s4)))
    have hc := visit_of_subVisits V kindOf g P N s s1 s4 [i, f, b] [t1, t2, t3] hsv
      (by rw [hk]; simp [operandSlots, hi, hf, hb]) hsub
    have he : [t1, t2, t3].flatten = t1 ++ t2 ++ t3 := by simp
    rw [he] at hc
    refine ⟨hc, fun fuel r hr => completes_unique hc fuel r hr, ?_⟩
    simp [prePost]
  · intro ins nodes ts s2 hk hw hsub
    have hc := visit_of_subVisits V kindOf g P N s s1 s2 nodes ts hsv
      (by rw [hk]; exact hw) hsub
    refine ⟨hc, fun fuel r hr => completes_unique hc fuel r hr, ?_⟩
    have hfl := prePost_flatten ts
    have h2 : prePost (.shouldVisit P N :: .pre P N :: (ts.flatten ++ [.post P N])) =
        .pre P N :: (prePost ts.flatten ++ [.post P N]) := by
      simp [prePost]
    rw [h2, hfl]

/-- C8 (pruning).  If `shouldVisit(P, M)` answers false, then `M.visit(P, visitor)`,
for a node `M` of any kind, makes that one `shouldVisit` call and no other hook
call, and leaves the visitor in the state `shouldVisit` left.  When `M` is an
operand of a visited node `N` (of any kind), the operands before `M` having made
the calls `tb` and those after `M` making the calls `ta`, the visit of `N` runs to
its end with the calls: `shouldVisit(Q, N)`, `pre(Q, N)`, `tb`,
`shouldVisit(N, M)`, `ta`, `post(Q, N)`. -/
theorem pruning (V : NodeVisitor σ Node) (kindOf : Node → Kind Slot)
    (g : Wiring Node Slot) (P : Option Node) (M : Node) (s s1 : σ)
    (hsv : V.shouldVisit P M s = (false, s1)) :
    (∀ fuel, visit V kindOf g (fuel + 1) P M s = .ok (s1, [.shouldVisit P M])) ∧
    (∀ (N : Node) (Q : Option Node) (q q1 s2 : σ) (before after : List Slot) (m : Slot)
      (nb na : List Node) (tb ta : List (List (Hook Node))),
      P = some N →
      operandSlots (kindOf N) = before ++ m :: after →
      g.node_ m = some M →
      before.map g.node_ = nb.map some →
      after.map g.node_ = na.map some →
      V.shouldVisit Q N q = (true, q1) →
      SubVisits V kindOf g N nb (V.pre Q N q1) tb s →
      SubVisits V kindOf g N na s1 ta s2 →
      Completes V kindOf g Q N q (V.post Q N s2)
        (.shouldVisit Q N :: .pre Q N ::
          (tb.flatten ++ [.shouldVisit (some N) M] ++ ta.flatten ++ [.post Q N]))) := by
  refine ⟨fun fuel => visit_pruned V kindOf g fuel P M s s1 hsv, ?_⟩
  intro N Q q q1 s2 before after m nb na tb ta hP hops hm hb ha hq hsb hsa
  subst hP
  have hM : Completes V kindOf g (some N) M s s1 [.shouldVisit (some N) M] :=
    ⟨1, visit_pruned V kindOf g 0 (some N) M s s1 hsv⟩
  have hsub := subVisits_append hsb (SubVisits.cons hM hsa)
  have hc := visit_of_subVisits V kindOf g Q N q q1 s2 (nb ++ M :: na)
    (tb ++ [.shouldVisit (some N) M] :: ta) hq
    (by rw [hops]; simp [hm, hb, ha]) hsub
  have he : (tb ++ [Hook.shouldVisit (some N) M] :: ta).flatten ++ [Hook.post Q N] =
      tb.flatten ++ [.shouldVisit (some N) M] ++ ta.flatten ++ [.post Q N] := by
    simp
  rw [he] at hc
  exact hc

end VisitFacts

/-- An instance of `traversal_order`: the fully-connected node 1 and the concat
node 2 of the example, visited from the root. -/
theorem traversal_order_witness :
    Completes demoVisitor demoKind demoWiring none 1 0 16
      [.shouldVisit none 1, .pre none 1,
       .shouldVisit (some 1) 0, .pre (some 1) 0,
       .shouldVisit (some 0) 10, .pre (some 0) 10, .post (some 0) 10,
       .shouldVisit (some 0) 10, .pre (some 0) 10, .post (some 0) 10,
       .post (some 1) 0,
       .shouldVisit (some 1) 10, .pre (some 1) 10, .post (some 1) 10,
       .shouldVisit (some 1) 11,
       .post none 1] ∧
    Completes demoVisitor demoKind demoWiring none 2 0 10
      [.shouldVisit none 2, .pre none 2,
       .shouldVisit (some 2) 10, .pre (some 2) 10, .post (some 2) 10,
       .shouldVisit (some 2) 11,
       .shouldVisit (some 2) 12, .pre (some 2) 12, .post (some 2) 12,
       .post none 2] :=
  ⟨((traversal_order demoVisitor demoKind demoWiring none 1 0 1 rfl).1 2 3 4 0 10 11 11 14 15
      [.shouldVisit (some 1) 0, .pre (some 1) 0,
       .shouldVisit (some 0) 10, .pre (some 0) 10, .post (some 0) 10,
       .shouldVisit (some 0) 10, .pre (some 0) 10, .post (some 0) 10,
       .post (some 1) 0]
      [.shouldVisit (some 1) 10, .pre (some 1) 10, .post (some 1) 10]
      [.shouldVisit (some 1) 11]
      rfl rfl rfl rfl ⟨2, rfl⟩ ⟨1, rfl⟩ ⟨1, rfl⟩).1,
   ((traversal_order demoVisitor demoKind demoWiring none 2 0 1 rfl).2 [5, 6, 7] [10, 11, 12]
      [[.shouldVisit (some 2) 10, .pre (some 2) 10, .post (some 2) 10],
       [.shouldVisit (some 2) 11],
       [.shouldVisit (some 2) 12, .pre (some 2) 12, .post (some 2) 12]] 9
      rfl rfl
      (.cons ⟨1, rfl⟩ (.cons ⟨1, rfl⟩ (.cons ⟨1, rfl⟩ (.nil 9))))).1⟩

/-- An instance of `pruning`: the visitor of the example declines node 11, the
second input of the concat node 2. -/
theorem pruning_witness :
    visit demoVisitor demoKind demoWiring 1 (some 2) 11 5 = .ok (6, [.shouldVisit (some 2) 11]) ∧
    Completes demoVisitor demoKind demoWiring none 2 0 10
      [.shouldVisit none 2, .pre none 2,
       .shouldVisit (some 2) 10, .pre (some 2) 10, .post (some 2) 10,
       .shouldVisit (some 2) 11,
       .shouldVisit (some 2) 12, .pre (some 2) 12, .post (some 2) 12,
       .post none 2] :=
  ⟨(pruning demoVisitor demoKind demoWiring (some 2) 11 5 6 rfl).1 0,
   (pruning demoVisitor demoKind demoWiring (some 2) 11 5 6 rfl).2 2 none 0 1 9 [5] [7] 6 [10] [12]
      [[.shouldVisit (some 2) 10, .pre (some 2) 10, .post (some 2) 10]]
      [[.shouldVisit (some 2) 12, .pre (some 2) 12, .post (some 2) 12]]
      rfl rfl rfl rfl rfl rfl
      (.cons ⟨1, rfl⟩ (.nil 5)) (.cons ⟨1, rfl⟩ (.nil 9))⟩


/-! ### Edge slots: identity invariant, totality, type stability, last write -/

theorem wiring_ext {Node Slot : Type} {g h : Wiring Node Slot} (h1 : ∀ S, g.node_ S = h.node_ S)
    (h2 : ∀ N, g.users_ N = h.users_ N) : g = h := by
  cases g with
  | mk gn gu =>
    cases h with
    | mk hn hu =>
      have e1 : gn = hn := funext h1
      have e2 : gu = hu := funext h2
      rw [e1, e2]

section EdgeSlotLaws
variable {Node Slot Ty : Type} [DecidableEq Node] [DecidableEq Slot] [DecidableEq Ty]

theorem consistent_useSiteIdentity {g : Wiring Node Slot} (hc : Consistent g) :
    UseSiteIdentity g := by
  refine ⟨fun S N => hc N S, ?_, ?_⟩
  · intro N
    rw [List.nodup_iff_count_le_one]
    intro U
    have := hc N U.site_
    have hU : (⟨U.site_⟩ : NodeUse Slot) = U := rfl
    rw [hU] at this
    split_ifs at this <;> omega
  · intro N U hU
    have := hc N U.site_
    have hU2 : (⟨U.site_⟩ : NodeUse Slot) = U := rfl
    rw [hU2] at this
    have hpos : 0 < (g.users_ N).count U := List.count_pos_iff.mpr hU
    by_contra hne
    rw [if_neg hne] at this
    omega

/-- C12 (use-site identity invariant).  In every state built from the empty
wiring by a finite sequence of `NodeOperand::setOperand` calls (each of which
returns), and in the state left by every sequence of type-checked
`NodeUse::setOperand` calls, stopped by the assertion or not: the use list of a
node `N` names a slot `S` exactly once if `S` holds `N` and not at all otherwise,
no use list names a slot twice, and every entry names a slot that holds the
node. -/
theorem useSite_identity (getType : Node → Ty) (calls : List (Slot × Option Node)) :
    (∃ g1, runOperandCalls (Wiring.empty Node Slot) calls = .returned g1 ∧
      UseSiteIdentity g1) ∧
    UseSiteIdentity (runUseCalls getType (Wiring.empty Node Slot) calls).state := by
  have h0 : Consistent (Wiring.empty Node Slot) := consistent_empty
  refine ⟨?_, consistent_useSiteIdentity (consistent_state_runUseCalls getType h0 calls)⟩
  obtain ⟨g1, h1, hc1⟩ := consistent_runOperandCalls h0 calls
  exact ⟨g1, h1, consistent_useSiteIdentity hc1⟩

/-- C16 (the raw edge-slot operation cannot fail).  In a graph state where every
non-empty slot has its use-site on the list of the node it holds,
`NodeOperand::setOperand(v)` returns for every slot and every `v`, node or null,
whatever the types; the removal of the old use-site finds the entry it removes
(`removeUse` answers with the list without it, the first block of the operation
returns), and the operation never stops for a use-site not found. -/
theorem rawSetOperand_cannot_fail (g : Wiring Node Slot)
    (hinv : ∀ (S : Slot) (A : Node), g.node_ S = some A → (⟨S⟩ : NodeUse Slot) ∈ g.users_ A)
    (S : Slot) (v : Option Node) :
    (∃ g1, NodeOperand.setOperand g S v = .returned g1) ∧
    (∀ A, g.node_ S = some A →
      removeUse (g.users_ A) ⟨S⟩ = some ((g.users_ A).erase ⟨S⟩)) ∧
    (∃ g1, NodeOperand.dropOld g S = .returned g1) ∧
    (∀ g1, NodeOperand.setOperand g S v ≠ .aborted .useNotFound g1) := by
  obtain ⟨g1, h1, _⟩ := setOperand_fields g S v (hinv S)
  refine ⟨⟨g1, h1⟩, ?_, ?_, ?_⟩
  · intro A hA
    simp [removeUse, hinv S A hA]
  · unfold NodeOperand.dropOld
    cases hA : g.node_ S with
    | none => exact ⟨g, rfl⟩
    | some A => simp [removeUse, hinv S A hA]
  · intro g2 h2
    rw [h1] at h2
    cases h2

/-- An instance of `rawSetOperand_cannot_fail`: slot 0 of the example, holding
node 10, is rewired to node 11, of another type. -/
theorem rawSetOperand_cannot_fail_witness :
    (∃ g1, NodeOperand.setOperand demoWiring 0 (some 11) = .returned g1) ∧
    (∀ A, demoWiring.node_ 0 = some A →
      removeUse (demoWiring.users_ A) ⟨0⟩ = some ((demoWiring.users_ A).erase ⟨0⟩)) ∧
    (∃ g1, NodeOperand.dropOld demoWiring 0 = .returned g1) ∧
    (∀ g1, NodeOperand.setOperand demoWiring 0 (some 11) ≠ .aborted .useNotFound g1) :=
  rawSetOperand_cannot_fail demoWiring
    (fun S => consistent_found (consistent_state_runOperandCalls consistent_empty _) S)
    0 (some 11)

theorem checked_keeps_type (getType : Node → Ty) (g : Wiring Node Slot) (S : Slot)
    (A B : Node) (hA : g.node_ S = some A) :
    ∃ C, (NodeUse.setOperand getType g ⟨S⟩ (some B)).state.node_ S = some C ∧
      getType C = getType A := by
  rcases checked_cases getType g S (some B) with h | h
  · by_cases hT : getType B = getType A
    · by_cases hf : (⟨S⟩ : NodeUse Slot) ∈ g.users_ A
      · obtain ⟨g1, h1, hn, _⟩ := setOperand_fields g S (some B) (by
          intro A1 hA1
          rw [hA] at hA1
          cases hA1
          exact hf)
        rw [h, h1]
        exact ⟨B, by simp [Outcome.state, hn S], hT⟩
      · by_cases hAB : B = A
        · rw [h, setOperand_same g S (some B) (by rw [hA, hAB])]
          exact ⟨A, hA, rfl⟩
        · rw [h, setOperand_notFound g S (some B) A hA (by simpa using hAB) hf]
          exact ⟨A, hA, rfl⟩
    · rw [checked_mismatch getType g S A B hA hT]
      exact ⟨A, hA, rfl⟩
  · rw [h]
    exact ⟨A, hA, rfl⟩

theorem runUseCalls_keeps_type (getType : Node → Ty) (S : Slot) (args : List Node) :
    ∀ (g : Wiring Node Slot) (A : Node), g.node_ S = some A →
      ∃ C, (runUseCalls getType g (callsOn S args)).state.node_ S = some C ∧
        getType C = getType A := by
  induction args with
  | nil => intro g A hA; exact ⟨A, hA, rfl⟩
  | cons B rest ih =>
    intro g A hA
    obtain ⟨C, hC, hT⟩ := checked_keeps_type getType g S A B hA
    simp only [callsOn, List.map_cons, runUseCalls]
    cases hr : NodeUse.setOperand getType g ⟨S⟩ (some B) with
    | returned g1 =>
      rw [hr] at hC
      obtain ⟨D, hD, hT2⟩ := ih g1 C hC
      exact ⟨D, hD, by rw [hT2, hT]⟩
    | aborted f g1 =>
      rw [hr] at hC
      exact ⟨C, hC, hT⟩

theorem runUseCalls_returns (getType : Node → Ty) (S : Slot) (args : List Node) :
    ∀ (g : Wiring Node Slot) (A : Node), Consistent g → g.node_ S = some A →
      ((∃ g1, runUseCalls getType g (callsOn S args) = .returned g1) ↔
        ∀ B ∈ args, getType B = getType A) := by
  induction args with
  | nil => intro g A _ _; simp [callsOn, runUseCalls]
  | cons B rest ih =>
    intro g A hc hA
    simp only [callsOn, List.map_cons, runUseCalls, List.mem_cons, forall_eq_or_imp]
    by_cases hT : getType B = getType A
    · have hraw := checked_eq_raw getType g S (some B) (by
        intro A1 B1 hA1 hB1
        rw [hA] at hA1
        cases hA1; cases hB1
        exact hT)
      obtain ⟨g1, h1, hn, _⟩ := setOperand_fields g S (some B) (consistent_found hc S)
      have hc1 : Consistent g1 := by
        have := consistent_state_setOperand hc S (some B)
        rw [h1] at this
        exact this
      have hB1 : g1.node_ S = some B := by rw [hn S, if_pos rfl]
      rw [hraw, h1]
      simp only [Outcome.andThen]
      have := ih g1 B hc1 hB1
      simp only [callsOn] at this
      rw [this, hT]
      simp
    · rw [checked_mismatch getType g S A B hA hT]
      simp [Outcome.andThen, hT]

/-- C18 (type stability of a slot under checked rewiring).  Let slot `S` hold `A`.
After every finite sequence of `NodeUse::setOperand` calls on `S` with non-null
arguments, whether the sequence ran to its end or was stopped, `S` holds a node of
the output type of `A`; as every initial part of a sequence is a sequence, this
holds after every call.  In a consistent state the sequence runs to its end (no
call is a contract violation) exactly when every argument has the type of `A`. -/
theorem type_stability (getType : Node → Ty) (g : Wiring Node Slot) (S : Slot) (A : Node)
    (hA : g.node_ S = some A) (args : List Node) :
    (∃ C, (runUseCalls getType g (callsOn S args)).state.node_ S = some C ∧
      getType C = getType A) ∧
    (Consistent g →
      ((∃ g1, runUseCalls getType g (callsOn S args) = .returned g1) ↔
        ∀ B ∈ args, getType B = getType A)) :=
  ⟨runUseCalls_keeps_type getType S args g A hA,
   fun hc => runUseCalls_returns getType S args g A hc hA⟩

/-- An instance of `type_stability`: slot 0 of the example is rewired to nodes 12,
14 and 10 in turn. -/
theorem type_stability_witness :
    (∃ C, (runUseCalls demoType demoWiring (callsOn 0 [12, 14, 10])).state.node_ 0 = some C ∧
      demoType C = demoType 10) ∧
    ((∃ g1, runUseCalls demoType demoWiring (callsOn 0 [12, 14, 10]) = .returned g1) ↔
        ∀ B ∈ [12, 14, 10], demoType B = demoType 10) :=
  ⟨(type_stability demoType demoWiring 0 10 rfl [12, 14, 10]).1,
   (type_stability demoType demoWiring 0 10 rfl [12, 14, 10]).2
     (consistent_state_runOperandCalls consistent_empty _)⟩

end EdgeSlotLaws

section LastWrite
variable {Node Slot Ty : Type} [DecidableEq Node] [DecidableEq Slot] [DecidableEq Ty]

/-- C19, amended with the condition that `S` does not hold `B` either (last write
wins).  In a consistent graph state, for a slot `S` and nodes `A ≠ B` neither of
which is held by `S`, `setOperand(A)` followed by `setOperand(B)` on `S` returns
and leaves exactly the graph state that `setOperand(B)` alone leaves: the same
held value of every slot and the same use lists, entries and order. -/
theorem lastWrite_wins (g : Wiring Node Slot) (hc : Consistent g) (S : Slot) (A B : Node)
    (hAB : A ≠ B) (hSA : g.node_ S ≠ some A) (hSB : g.node_ S ≠ some B) :
    ∃ g1 g2, NodeOperand.setOperand g S (some A) = .returned g1 ∧
      NodeOperand.setOperand g1 S (some B) = .returned g2 ∧
      NodeOperand.setOperand g S (some B) = .returned g2 := by
  obtain ⟨g1, h1, hn1, hu1⟩ := setOperand_fields g S (some A) (consistent_found hc S)
  have hc1 : Consistent g1 := by
    have := consistent_state_setOperand hc S (some A)
    rw [h1] at this
    exact this
  obtain ⟨g2, h2, hn2, hu2⟩ := setOperand_fields g1 S (some B) (consistent_found hc1 S)
  obtain ⟨g3, h3, hn3, hu3⟩ := setOperand_fields g S (some B) (consistent_found hc S)
  have h1S : g1.node_ S = some A := by rw [hn1 S, if_pos rfl]
  have hA0 : (⟨S⟩ : NodeUse Slot) ∉ g.users_ A := by
    intro hmem
    have := hc A S
    rw [if_neg hSA] at this
    have hpos : 0 < (g.users_ A).count ⟨S⟩ := List.count_pos_iff.mpr hmem
    omega
  have hAB2 : ¬ (some A = some B) := fun h => hAB (Option.some.inj h)
  have hBA2 : ¬ (some B = some A) := fun h => hAB (Option.some.inj h).symm
  have e : g2 = g3 := by
    apply wiring_ext
    · intro S0
      rw [hn2 S0, hn3 S0, hn1 S0]
      by_cases hS : S0 = S <;> simp [hS]
    · intro N
      rw [hu2 N, hu3 N, hu1 N, h1S, if_neg hAB2, if_neg hSA, if_neg hSB]
      by_cases hNA : N = A
      · subst hNA
        rw [if_pos rfl, if_neg hSA, if_pos rfl, if_neg hSA, if_neg hBA2]
        rw [List.erase_append_right _ hA0]
        simp
      · have hAN : ¬ (some A = some N) := fun h => hNA (Option.some.inj h).symm
        rw [if_neg hAN, if_neg hAN]
        by_cases hNB : N = B
        · subst hNB
          simp [hSB]
        · have hBN : ¬ (some B = some N) := fun h => hNB (Option.some.inj h).symm
          simp [hBN]
  exact ⟨g1, g2, h1, h2, by rw [e]; exact h3⟩

/-- An instance of `lastWrite_wins`: slot 0 of the example holds node 10 and is
set to node 12, then to node 14. -/
theorem lastWrite_wins_witness :
    ∃ g1 g2, NodeOperand.setOperand demoWiring 0 (some 12) = .returned g1 ∧
      NodeOperand.setOperand g1 0 (some 14) = .returned g2 ∧
      NodeOperand.setOperand demoWiring 0 (some 14) = .returned g2 :=
  lastWrite_wins demoWiring (consistent_state_runOperandCalls consistent_empty _) 0 12 14
    (by decide) (by decide) (by decide)

/-- C19 without the condition on `B`: in the example slot 0 holds node 10, whose
use list is slots 0, 1, 3, 5 in this order.  With `A` node 12 and `B` node 10,
`setOperand(B)` alone returns at once and changes nothing, while `setOperand(A)`
followed by `setOperand(B)` takes the entry of slot 0 off the list of node 10 and
appends it again at the end: the two states differ in the order of that list. -/
theorem lastWrite_counterexample :
    Consistent demoWiring ∧ (12 : Nat) ≠ 10 ∧ demoWiring.node_ 0 ≠ some 12 ∧
    ((NodeOperand.setOperand demoWiring 0 (some 12)).andThen
        fun g1 => NodeOperand.setOperand g1 0 (some 10)).state.users_ 10 =
      [⟨1⟩, ⟨3⟩, ⟨5⟩, ⟨0⟩] ∧
    (NodeOperand.setOperand demoWiring 0 (some 10)).state.users_ 10 =
      [⟨0⟩, ⟨1⟩, ⟨3⟩, ⟨5⟩] ∧
    ((NodeOperand.setOperand demoWiring 0 (some 12)).andThen
        fun g1 => NodeOperand.setOperand g1 0 (some 10)).state ≠
      (NodeOperand.setOperand demoWiring 0 (some 10)).state := by
  refine ⟨consistent_state_runOperandCalls consistent_empty _, by decide, by decide, rfl, rfl, ?_⟩
  intro h
  have h10 := congrArg (fun w => w.users_ 10) h
  have ha : ((NodeOperand.setOperand demoWiring 0 (some 12)).andThen
        fun g1 => NodeOperand.setOperand g1 0 (some 10)).state.users_ 10 =
      [⟨1⟩, ⟨3⟩, ⟨5⟩, ⟨0⟩] := rfl
  have hb : (NodeOperand.setOperand demoWiring 0 (some 10)).state.users_ 10 =
      [⟨0⟩, ⟨1⟩, ⟨3⟩, ⟨5⟩] := rfl
  simp only [ha, hb] at h10
  exact absurd h10 (by decide)

end LastWrite

/-! ### The walk: protocol, termination, nesting, path counts, visited sets -/

section Termination

variable {σ Node Slot : Type}

theorem visit_eq_protocol (V : NodeVisitor σ Node) (kindOf : Node → Kind Slot)
    (g : Wiring Node Slot) (fuel : Nat) :
    visit V kindOf g fuel = protocolVisit V kindOf g fuel := by
  induction fuel with
  | zero => funext P N; rfl
  | succ k ih =>
    funext P N
    rw [visit_eq_generic, ih]
    rfl

/-- C13 (per-kind traversal equals the generic protocol).  For every node kind
the `visit` method of the kind yields, from every visitor state, the same result
(hook calls in the same order, same final state, or the same failure) as the one
generic procedure `protocolVisit`: if `shouldVisit(P, N)` then `pre(P, N)`, a visit
of each operand of the declared list with caller `N`, `post(P, N)`.  The declared
lists are: convolution and fully-connected `[in_, filter_, bias_]`;
batch-normalization `[in_, scale_, bias_, mean_, var_]`; arithmetic
`[LHS_, RHS_]`; softmax `[in_, selected_]`; regression `[in_, expected_]`; concat
its stored inputs; relu, sigmoid, tanh, reshape, transpose, pooling,
local-response-normalization and return `[in_]`; variable the empty list. -/
theorem visit_refines_protocol (V : NodeVisitor σ Node) (kindOf : Node → Kind Slot)
    (g : Wiring Node Slot) :
    (∀ (fuel : Nat) (P : Option Node) (N : Node) (s : σ),
      visit V kindOf g fuel P N s = protocolVisit V kindOf g fuel P N s) ∧
    (∀ a b c : Slot, operandSlots (.Convolution a b c) = [a, b, c]) ∧
    (∀ a b c : Slot, operandSlots (.FullyConnected a b c) = [a, b, c]) ∧
    (∀ a b c d e : Slot, operandSlots (.BatchNormalization a b c d e) = [a, b, c, d, e]) ∧
    (∀ a b : Slot, operandSlots (.Arithmetic a b) = [a, b]) ∧
    (∀ a b : Slot, operandSlots (.SoftMax a b) = [a, b]) ∧
    (∀ a b : Slot, operandSlots (.Regression a b) = [a, b]) ∧
    (∀ l : List Slot, operandSlots (.Concat l) = l) ∧
    (∀ a : Slot, operandSlots (.Relu a) = [a] ∧ operandSlots (.Sigmoid a) = [a] ∧
      operandSlots (.Tanh a) = [a] ∧ operandSlots (.Reshape a) = [a] ∧
      operandSlots (.Transpose a) = [a] ∧ operandSlots (.Pool a) = [a] ∧
      operandSlots (.LocalResponseNormalization a) = [a] ∧
      operandSlots (.Return a) = [a]) ∧
    operandSlots (.Variable : Kind Slot) = [] := by
  refine ⟨fun fuel P N s => by rw [visit_eq_protocol], ?_, ?_, ?_, ?_, ?_, ?_, ?_, ?_, ?_⟩ <;>
    intros <;> simp [operandSlots]

theorem forEachVisit_cons_inv {g : Wiring Node Slot} {f : Option Node → Node → Walk σ Node}
    {N : Node} {I : Slot} {rest : List Slot} {s : σ} {r : σ × List (Hook Node)}
    (h : forEachVisit g f N (I :: rest) s = .ok r) :
    ∃ n r1 r2, g.node_ I = some n ∧ f (some N) n s = .ok r1 ∧
      forEachVisit g f N rest r1.1 = .ok r2 ∧ r = (r2.1, r1.2 ++ r2.2) := by
  simp only [forEachVisit] at h
  obtain ⟨r1, r2, h1, h2, hr⟩ := seq_ok_inv h
  unfold arrowVisit at h1
  cases hI : g.node_ I with
  | none => rw [hI] at h1; cases h1
  | some n =>
    rw [hI] at h1
    exact ⟨n, r1, r2, rfl, h1, h2, hr⟩

theorem genericVisit_inv {V : NodeVisitor σ Node} {g : Wiring Node Slot}
    {f : Option Node → Node → Walk σ Node} {ops : List Slot} {P : Option Node} {N : Node}
    {s : σ} {r : σ × List (Hook Node)}
    (h : genericVisit V g f ops P N s = .ok r) :
    ((V.shouldVisit P N s).1 = false ∧ r = ((V.shouldVisit P N s).2, [.shouldVisit P N])) ∨
    ((V.shouldVisit P N s).1 = true ∧ ∃ r2,
      forEachVisit g f N ops (V.pre P N (V.shouldVisit P N s).2) = .ok r2 ∧
      r = (V.post P N r2.1, .shouldVisit P N :: .pre P N :: (r2.2 ++ [.post P N]))) := by
  unfold genericVisit guarded at h
  by_cases hsv : (V.shouldVisit P N s).1 = true
  · right
    refine ⟨hsv, ?_⟩
    rw [if_pos hsv] at h
    cases hb : ((callPre V P N).seq ((forEachVisit g f N ops).seq (callPost V P N)))
        (V.shouldVisit P N s).2 with
    | error e => rw [hb] at h; cases h
    | ok rb =>
      rw [hb] at h
      simp only at h
      obtain ⟨r1, r2, h1, h2, hr⟩ := seq_ok_inv hb
      obtain ⟨r3, r4, h3, h4, hr2⟩ := seq_ok_inv h2
      simp only [callPre, Except.ok.injEq] at h1
      simp only [callPost, Except.ok.injEq] at h4
      subst h1
      subst h4
      refine ⟨r3, h3, ?_⟩
      cases h
      rw [hr, hr2]
      rfl
  · left
    rw [if_neg hsv] at h
    simp only [Except.ok.injEq] at h
    exact ⟨by simpa using hsv, h.symm⟩

theorem genericVisit_ok {V : NodeVisitor σ Node} {g : Wiring Node Slot}
    {f : Option Node → Node → Walk σ Node} {ops : List Slot} {N : Node}
    (h : ∀ s, ∃ r, forEachVisit g f N ops s = .ok r) (P : Option Node) (s : σ) :
    ∃ r, genericVisit V g f ops P N s = .ok r := by
  unfold genericVisit guarded
  by_cases hsv : (V.shouldVisit P N s).1 = true
  · rw [if_pos hsv]
    obtain ⟨r, hr⟩ := h (V.pre P N (V.shouldVisit P N s).2)
    have h2 : ((forEachVisit g f N ops).seq (callPost V P N))
        (V.pre P N (V.shouldVisit P N s).2) = .ok (V.post P N r.1, r.2 ++ [.post P N]) :=
      seq_ok hr rfl
    have h3 := @seq_ok σ Node (callPre V P N) _ (V.shouldVisit P N s).2
      (V.pre P N (V.shouldVisit P N s).2, [.pre P N]) _ rfl h2
    rw [h3]
    exact ⟨_, rfl⟩
  · rw [if_neg hsv]
    exact ⟨_, rfl⟩

theorem edge_wellFounded [Finite Node] (kindOf : Node → Kind Slot) (g : Wiring Node Slot)
    (hac : Acyclic kindOf g) : WellFounded fun n N => Edge kindOf g N n := by
  have hirr : IsIrrefl Node (Relation.TransGen fun n N => Edge kindOf g N n) :=
    ⟨fun N h => hac N (Relation.transGen_swap.mp h)⟩
  have hwf := Finite.wellFounded_of_trans_of_irrefl
    (Relation.TransGen fun n N => Edge kindOf g N n)
  have hsub : Subrelation (fun n N => Edge kindOf g N n)
      (Relation.TransGen fun n N => Edge kindOf g N n) :=
    fun h => Relation.TransGen.single h
  exact Subrelation.wf hsub hwf

theorem visit_terminates [Finite Node] (V : NodeVisitor σ Node) (kindOf : Node → Kind Slot)
    (g : Wiring Node Slot) (hac : Acyclic kindOf g) (R : Node) (hw : WiredFrom kindOf g R) :
    ∀ N, Reaches kindOf g R N →
      ∃ F, ∀ k, F ≤ k → ∀ (P : Option Node) (s : σ), ∃ r, visit V kindOf g k P N s = .ok r := by
  intro N
  induction N using (edge_wellFounded kindOf g hac).induction with
  | _ N ih =>
    intro hreach
    have hlist : ∀ ops : List Slot, (∀ sl ∈ ops, sl ∈ operandSlots (kindOf N)) →
        ∃ F, ∀ k, F ≤ k → ∀ s, ∃ r, forEachVisit g (visit V kindOf g k) N ops s = .ok r := by
      intro ops
      induction ops with
      | nil => intro _; exact ⟨0, fun k _ s => ⟨(s, []), rfl⟩⟩
      | cons I rest ihl =>
        intro hsub
        have hI := hsub I (List.mem_cons_self _ _)
        obtain ⟨Fr, hFr⟩ := ihl (fun sl hsl => hsub sl (List.mem_cons_of_mem _ hsl))
        cases hn : g.node_ I with
        | none => exact absurd hn (hw N hreach I hI)
        | some n =>
          have he : Edge kindOf g N n := ⟨I, hI, hn⟩
          obtain ⟨Fn, hFn⟩ := ih n he (Relation.ReflTransGen.tail hreach he)
          refine ⟨max Fn Fr, fun k hk s => ?_⟩
          obtain ⟨r1, h1⟩ := hFn k (le_trans (le_max_left _ _) hk) (some N) s
          obtain ⟨r2, h2⟩ := hFr k (le_trans (le_max_right _ _) hk) r1.1
          have ha : arrowVisit g (visit V kindOf g k) N I s = .ok r1 := by
            unfold arrowVisit
            rw [hn]
            exact h1
          exact ⟨_, by simp only [forEachVisit]; exact seq_ok ha h2⟩
    obtain ⟨F, hF⟩ := hlist (operandSlots (kindOf N)) (fun _ h => h)
    refine ⟨F + 1, fun k hk P s => ?_⟩
    obtain ⟨j, rfl⟩ : ∃ j, k = j + 1 := ⟨k - 1, by omega⟩
    rw [visit_eq_generic]
    exact genericVisit_ok (hF j (by omega)) P s

/-- C17 (traversal terminates).  In a finite acyclic graph in which every operand
slot of every node reachable from the root `R` is wired, for every caller `P`,
every visitor and every visitor state, `R.visit(P, visitor)` runs to its end: with
any recursion budget from some bound on, the walk yields a final state and a
finite list of hook calls, so it neither dereferences an empty slot nor recurses
without end.  The hooks are total functions and have no access to the graph. -/
theorem traversal_terminates [Finite Node] (V : NodeVisitor σ Node)
    (kindOf : Node → Kind Slot) (g : Wiring Node Slot) (hac : Acyclic kindOf g)
    (R : Node) (hw : WiredFrom kindOf g R) :
    ∃ F, ∀ k, F ≤ k → ∀ (P : Option Node) (s : σ),
      ∃ s1 t, visit V kindOf g k P R s = .ok (s1, t) := by
  obtain ⟨F, hF⟩ := visit_terminates V kindOf g hac R hw R Relation.ReflTransGen.refl
  refine ⟨F, fun k hk P s => ?_⟩
  obtain ⟨r, hr⟩ := hF k hk P s
  exact ⟨r.1, r.2, hr⟩

theorem acyclic_of_rank (kindOf : Node → Kind Slot) (g : Wiring Node Slot) (rank : Node → Nat)
    (h : ∀ N, ∀ s ∈ operandSlots (kindOf N), ∀ n, g.node_ s = some n → rank n < rank N) :
    Acyclic kindOf g := by
  have key : ∀ N M, Relation.TransGen (Edge kindOf g) N M → rank M < rank N := by
    intro N M hNM
    induction hNM with
    | single he =>
      obtain ⟨s, hs, hn⟩ := he
      exact h _ s hs _ hn
    | tail _ he ih =>
      obtain ⟨s, hs, hn⟩ := he
      exact lt_trans (h _ s hs _ hn) ih
  intro N hN
  exact lt_irrefl _ (key N N hN)

theorem wiredFrom_of_wired (kindOf : Node → Kind Slot) (g : Wiring Node Slot)
    (h : Wired kindOf g) (R : Node) : WiredFrom kindOf g R :=
  fun N _ s hs => h N s hs

theorem diamond_acyclic : Acyclic diamondKind diamondWiring :=
  acyclic_of_rank diamondKind diamondWiring (fun n => 3 - n.val) (by decide)

theorem diamond_wired : Wired diamondKind diamondWiring := by
  unfold Wired
  decide

theorem diamond_slotsDistinct : SlotsDistinct diamondKind := by
  unfold SlotsDistinct
  decide

/-- An instance of `traversal_terminates`: the diamond, walked from node 0. -/
theorem traversal_terminates_witness :
    ∃ F, ∀ k, F ≤ k → ∀ (P : Option (Fin 4)) (s : Nat),
      ∃ s1 t, visit countingVisitor diamondKind diamondWiring k P 0 s = .ok (s1, t) :=
  traversal_terminates countingVisitor diamondKind diamondWiring diamond_acyclic 0
    (wiredFrom_of_wired _ _ diamond_wired 0)

end Termination

section Nesting

variable {σ Node Slot : Type}

theorem bracketed_shouldVisit [DecidableEq Node] (stack : List (Option Node × Node))
    (P : Option Node) (N : Node) (t : List (Hook Node)) :
    bracketed stack (.shouldVisit P N :: t) = bracketed stack t := by
  cases stack <;> simp [bracketed]

theorem bracketed_pre [DecidableEq Node] (stack : List (Option Node × Node))
    (P : Option Node) (N : Node) (t : List (Hook Node)) :
    bracketed stack (.pre P N :: t) = bracketed ((P, N) :: stack) t := by
  cases stack <;> simp [bracketed]

theorem bracketed_post [DecidableEq Node] (stack : List (Option Node × Node))
    (P : Option Node) (N : Node) (t : List (Hook Node)) :
    bracketed ((P, N) :: stack) (.post P N :: t) = bracketed stack t := by
  simp [bracketed]

theorem bracketed_prePost [DecidableEq Node] (t : List (Hook Node)) :
    ∀ stack, bracketed stack (prePost t) = bracketed stack t := by
  induction t with
  | nil => intro stack; rfl
  | cons h t ih =>
    intro stack
    cases h with
    | shouldVisit P N =>
      rw [bracketed_shouldVisit]
      simpa [prePost] using ih stack
    | pre P N =>
      have : prePost (Hook.pre P N :: t) = Hook.pre P N :: prePost t := by simp [prePost]
      rw [this, bracketed_pre, bracketed_pre, ih]
    | post P N =>
      have : prePost (Hook.post P N :: t) = Hook.post P N :: prePost t := by simp [prePost]
      rw [this]
      cases stack with
      | nil => simp [bracketed]
      | cons top stack => simp [bracketed, ih]

theorem forEach_balanced [DecidableEq Node] (g : Wiring Node Slot)
    (f : Option Node → Node → Walk σ Node)
    (hf : ∀ (P : Option Node) (N : Node) (s : σ) (r : σ × List (Hook Node)),
      f P N s = .ok r → ∀ stack rest, bracketed stack (r.2 ++ rest) = bracketed stack rest)
    (N : Node) (ops : List Slot) :
    ∀ (s : σ) (r : σ × List (Hook Node)), forEachVisit g f N ops s = .ok r →
      ∀ stack rest, bracketed stack (r.2 ++ rest) = bracketed stack rest := by
  induction ops with
  | nil =>
    intro s r h stack rest
    simp only [forEachVisit, Except.ok.injEq] at h
    subst h
    rfl
  | cons I ops ihl =>
    intro s r h stack rest
    obtain ⟨n, r1, r2, _, h1, h2, hr⟩ := forEachVisit_cons_inv h
    subst hr
    simp only [List.append_assoc]
    rw [hf _ _ _ _ h1, ihl _ _ h2]

theorem visit_balanced [DecidableEq Node] (V : NodeVisitor σ Node) (kindOf : Node → Kind Slot)
    (g : Wiring Node Slot) :
    ∀ (k : Nat) (P : Option Node) (N : Node) (s : σ) (r : σ × List (Hook Node)),
      visit V kindOf g k P N s = .ok r →
      ∀ stack rest, bracketed stack (r.2 ++ rest) = bracketed stack rest := by
  intro k
  induction k with
  | zero => intro P N s r h; simp [visit] at h
  | succ k ih =>
    intro P N s r h stack rest
    rw [visit_eq_generic] at h
    rcases genericVisit_inv h with ⟨_, hr⟩ | ⟨_, r2, h2, hr⟩
    · subst hr
      exact bracketed_shouldVisit stack P N rest
    · subst hr
      have := forEach_balanced g _ ih N _ _ _ h2 ((P, N) :: stack) (.post P N :: rest)
      simp only [List.cons_append, List.append_assoc, List.singleton_append,
        List.nil_append, bracketed_shouldVisit, bracketed_pre]
      rw [this, bracketed_post]

/-- C14, amended with the condition that the operand slots of the nodes reachable
from `N` are wired (well-nested hook sequence).  In a finite acyclic graph with
that condition, if `shouldVisit(P, N)` answers true then `N.visit(P, visitor)` runs
to its end and its sequence of `pre` and `post` calls starts with `pre(P, N)`, ends
with `post(P, N)`, and is properly bracketed in between: every `pre(Q, M)` is
closed by a later `post(Q, M)` with the same arguments, and the pairs are nested,
never interleaved (the stack discipline checked by `bracketed`). -/
theorem hooks_wellNested [Finite Node] [DecidableEq Node] (V : NodeVisitor σ Node)
    (kindOf : Node → Kind Slot) (g : Wiring Node Slot) (hac : Acyclic kindOf g)
    (P : Option Node) (N : Node) (s : σ) (hw : WiredFrom kindOf g N)
    (hsv : (V.shouldVisit P N s).1 = true) :
    ∃ s1 t inner, Completes V kindOf g P N s s1 t ∧
      prePost t = .pre P N :: (inner ++ [.post P N]) ∧
      bracketed [] inner = true := by
  obtain ⟨F, hF⟩ := visit_terminates V kindOf g hac N hw N Relation.ReflTransGen.refl
  obtain ⟨r, hr⟩ := hF (F + 1) (Nat.le_succ F) P s
  have hr0 := hr
  rw [visit_eq_generic] at hr
  rcases genericVisit_inv hr with ⟨hno, _⟩ | ⟨_, r2, h2, hr2⟩
  · rw [hsv] at hno
    cases hno
  · refine ⟨r.1, r.2, prePost r2.2, ⟨F + 1, hr0⟩, ?_, ?_⟩
    · rw [hr2]
      simp [prePost]
    · rw [bracketed_prePost]
      have := forEach_balanced g _ (visit_balanced V kindOf g F) N _ _ _ h2 [] []
      simpa [bracketed] using this

/-- An instance of `hooks_wellNested`: the diamond, walked from node 0. -/
theorem hooks_wellNested_witness :
    ∃ s1 t inner, Completes countingVisitor diamondKind diamondWiring none 0 0 s1 t ∧
      prePost t = .pre none 0 :: (inner ++ [.post none 0]) ∧
      bracketed [] inner = true :=
  hooks_wellNested countingVisitor diamondKind diamondWiring diamond_acyclic none 0 0
    (wiredFrom_of_wired _ _ diamond_wired 0) rfl

/-- C14 without the wiring condition: the diamond classes over the empty wiring
form a finite acyclic graph; the relu node 1 is visited (`shouldVisit` answers
true, `pre` is called), then `in_->visit` dereferences the empty slot 2, so the
call never reaches `post(P, N)` and no run of it ends. -/
theorem hooks_wellNested_counterexample :
    Acyclic diamondKind (Wiring.empty (Fin 4) (Fin 4)) ∧
    (countingVisitor.shouldVisit none 1 0).1 = true ∧
    (∀ fuel, visit countingVisitor diamondKind (Wiring.empty (Fin 4) (Fin 4)) (fuel + 1)
      none 1 0 = .error .nullOperand) ∧
    ¬ ∃ s1 t, Completes countingVisitor diamondKind (Wiring.empty (Fin 4) (Fin 4))
      none 1 0 s1 t := by
  have hnull : ∀ fuel, visit countingVisitor diamondKind (Wiring.empty (Fin 4) (Fin 4))
      (fuel + 1) none 1 0 = .error .nullOperand := fun fuel => rfl
  refine ⟨acyclic_of_rank _ _ (fun _ => 0) (by decide), rfl, hnull, ?_⟩
  rintro ⟨s1, t, fuel, h⟩
  cases fuel with
  | zero => simp [visit] at h
  | succ k => rw [hnull k] at h; cases h

end Nesting

section PathCounts

variable {σ Node Slot : Type}

theorem preCount_append [DecidableEq Node] (M : Node) (a b : List (Hook Node)) :
    preCount M (a ++ b) = preCount M a + preCount M b := by
  simp [preCount]

theorem postCount_append [DecidableEq Node] (M : Node) (a b : List (Hook Node)) :
    postCount M (a ++ b) = postCount M a + postCount M b := by
  simp [postCount]

theorem preCount_visited [DecidableEq Node] (M : Node) (P : Option Node) (N : Node)
    (inner : List (Hook Node)) :
    preCount M (.shouldVisit P N :: .pre P N :: (inner ++ [.post P N])) =
      (if N = M then 1 else 0) + preCount M inner := by
  by_cases h : N = M
  · simp [preCount, List.countP_cons, h]; omega
  · simp [preCount, List.countP_cons, h]

theorem postCount_visited [DecidableEq Node] (M : Node) (P : Option Node) (N : Node)
    (inner : List (Hook Node)) :
    postCount M (.shouldVisit P N :: .pre P N :: (inner ++ [.post P N])) =
      (if N = M then 1 else 0) + postCount M inner := by
  by_cases h : N = M
  · simp [postCount, List.countP_cons, h]; omega
  · simp [postCount, List.countP_cons, h]

theorem pathsTo_succ [DecidableEq Node] (kindOf : Node → Kind Slot) (g : Wiring Node Slot)
    (k : Nat) (R M : Node) :
    pathsTo kindOf g (k + 1) R M =
      (if R = M then [[]] else []) ++
        (operandSlots (kindOf R)).flatMap fun s =>
          match g.node_ s with
          | some n => (pathsTo kindOf g k n M).map fun p => s :: p
          | none => [] := rfl

theorem forEach_counts [DecidableEq Node] (kindOf : Node → Kind Slot) (g : Wiring Node Slot)
    (f : Option Node → Node → Walk σ Node) (k : Nat) (M : Node)
    (hf : ∀ (P : Option Node) (N : Node) (s : σ) (r : σ × List (Hook Node)),
      f P N s = .ok r →
        preCount M r.2 = (pathsTo kindOf g k N M).length ∧
        postCount M r.2 = (pathsTo kindOf g k N M).length)
    (N : Node) (ops : List Slot) :
    ∀ (s : σ) (r : σ × List (Hook Node)), forEachVisit g f N ops s = .ok r →
      preCount M r.2 = (ops.flatMap fun sl =>
          match g.node_ sl with
          | some n => (pathsTo kindOf g k n M).map fun p => sl :: p
          | none => []).length ∧
      postCount M r.2 = (ops.flatMap fun sl =>
          match g.node_ sl with
          | some n => (pathsTo kindOf g k n M).map fun p => sl :: p
          | none => []).length := by
  induction ops with
  | nil =>
    intro s r h
    simp only [forEachVisit, Except.ok.injEq] at h
    subst h
    simp [preCount, postCount]
  | cons I ops ihl =>
    intro s r h
    obtain ⟨n, r1, r2, hn, h1, h2, hr⟩ := forEachVisit_cons_inv h
    subst hr
    obtain ⟨ha, hb⟩ := hf _ _ _ _ h1
    obtain ⟨hc, hd⟩ := ihl _ _ h2
    simp only [preCount_append, postCount_append, List.flatMap_cons, List.length_append, hn,
      List.length_map, ha, hb, hc, hd, and_self]

theorem visit_counts [DecidableEq Node] (V : NodeVisitor σ Node) (kindOf : Node → Kind Slot)
    (g : Wiring Node Slot) (hv : AlwaysVisits V) (M : Node) :
    ∀ (k : Nat) (P : Option Node) (N : Node) (s : σ) (r : σ × List (Hook Node)),
      visit V kindOf g k P N s = .ok r →
        preCount M r.2 = (pathsTo kindOf g k N M).length ∧
        postCount M r.2 = (pathsTo kindOf g k N M).length := by
  intro k
  induction k with
  | zero => intro P N s r h; simp [visit] at h
  | succ k ih =>
    intro P N s r h
    rw [visit_eq_generic] at h
    rcases genericVisit_inv h with ⟨hno, _⟩ | ⟨_, r2, h2, hr⟩
    · rw [hv P N s] at hno
      cases hno
    · subst hr
      obtain ⟨ha, hb⟩ := forEach_counts kindOf g _ k M ih N _ _ _ h2
      rw [pathsTo_succ, preCount_visited, postCount_visited, List.length_append, ha, hb]
      by_cases hNM : N = M <;> simp [hNM]

theorem pathsTo_sound [DecidableEq Node] (kindOf : Node → Kind Slot) (g : Wiring Node Slot)
    (M : Node) :
    ∀ (k : Nat) (R : Node) (p : List Slot), p ∈ pathsTo kindOf g k R M →
      IsPath kindOf g R p M := by
  intro k
  induction k with
  | zero => intro R p h; simp [pathsTo] at h
  | succ k ih =>
    intro R p h
    rw [pathsTo_succ, List.mem_append] at h
    rcases h with h | h
    · by_cases hRM : R = M
      · rw [if_pos hRM] at h
        simp only [List.mem_singleton] at h
        subst h
        subst hRM
        exact IsPath.nil R
      · rw [if_neg hRM] at h
        cases h
    · rw [List.mem_flatMap] at h
      obtain ⟨sl, hsl, hp⟩ := h
      cases hn : g.node_ sl with
      | none => rw [hn] at hp; cases hp
      | some n =>
        rw [hn] at hp
        simp only [List.mem_map] at hp
        obtain ⟨q, hq, rfl⟩ := hp
        exact IsPath.cons hsl hn (ih n q hq)

theorem pathsTo_complete [DecidableEq Node] (kindOf : Node → Kind Slot) (g : Wiring Node Slot)
    {R M : Node} {p : List Slot} (h : IsPath kindOf g R p M) :
    ∀ k, p.length < k → p ∈ pathsTo kindOf g k R M := by
  induction h with
  | nil N =>
    intro k hk
    obtain ⟨j, rfl⟩ : ∃ j, k = j + 1 := ⟨k - 1, by omega⟩
    rw [pathsTo_succ]
    simp
  | @cons N n M sl q hsl hn _ ih =>
    intro k hk
    obtain ⟨j, rfl⟩ : ∃ j, k = j + 1 := ⟨k - 1, by omega⟩
    rw [pathsTo_succ, List.mem_append]
    right
    rw [List.mem_flatMap]
    refine ⟨sl, hsl, ?_⟩
    rw [hn]
    simp only [List.mem_map]
    exact ⟨q, ih j (by simp only [List.length_cons] at hk; omega), rfl⟩

theorem forEach_sub_ok {g : Wiring Node Slot} {f : Option Node → Node → Walk σ Node}
    {N : Node} (ops : List Slot) :
    ∀ (s : σ) (r : σ × List (Hook Node)), forEachVisit g f N ops s = .ok r →
      ∀ sl ∈ ops, ∀ n, g.node_ sl = some n → ∃ s1 r1, f (some N) n s1 = .ok r1 := by
  induction ops with
  | nil => intro s r _ sl hsl; cases hsl
  | cons I ops ihl =>
    intro s r h sl hsl n hn
    obtain ⟨m, r1, r2, hm, h1, h2, _⟩ := forEachVisit_cons_inv h
    rcases List.mem_cons.mp hsl with rfl | hmem
    · rw [hm] at hn
      cases hn
      exact ⟨s, r1, h1⟩
    · exact ihl _ _ h2 sl hmem n hn

theorem paths_short (V : NodeVisitor σ Node) (kindOf : Node → Kind Slot)
    (g : Wiring Node Slot) (hv : AlwaysVisits V) {N M : Node} {p : List Slot}
    (h : IsPath kindOf g N p M) :
    ∀ (k : Nat) (P : Option Node) (s : σ) (r : σ × List (Hook Node)),
      visit V kindOf g k P N s = .ok r → p.length < k := by
  induction h with
  | nil N =>
    intro k P s r h
    cases k with
    | zero => simp [visit] at h
    | succ k => simp
  | @cons N n M sl q hsl hn _ ih =>
    intro k P s r h
    cases k with
    | zero => simp [visit] at h
    | succ k =>
      rw [visit_eq_generic] at h
      rcases genericVisit_inv h with ⟨hno, _⟩ | ⟨_, r2, h2, _⟩
      · rw [hv P N s] at hno
        cases hno
      · obtain ⟨s1, r1, h1⟩ := forEach_sub_ok _ _ _ h2 sl hsl n hn
        have := ih k (some N) s1 r1 h1
        simp only [List.length_cons]
        omega

theorem pathsTo_nodup [DecidableEq Node] (kindOf : Node → Kind Slot) (g : Wiring Node Slot)
    (hd : SlotsDistinct kindOf) (M : Node) :
    ∀ (k : Nat) (R : Node), (pathsTo kindOf g k R M).Nodup := by
  intro k
  induction k with
  | zero => intro R; simp [pathsTo]
  | succ k ih =>
    intro R
    rw [pathsTo_succ, List.nodup_append]
    refine ⟨by split_ifs <;> simp, ?_, ?_⟩
    · rw [List.nodup_flatMap]
      refine ⟨?_, ?_⟩
      · intro sl _
        cases hn : g.node_ sl with
        | none => simp
        | some n =>
          simp only
          exact (ih n).map (fun a b hab => by simpa using hab)
      · refine (hd R).imp ?_
        intro a b hab
        intro p hpa hpb
        dsimp only at hpa hpb
        cases ha : g.node_ a with
        | none => rw [ha] at hpa; cases hpa
        | some na =>
          cases hb : g.node_ b with
          | none => rw [hb] at hpb; cases hpb
          | some nb =>
            rw [ha] at hpa
            rw [hb] at hpb
            simp only [List.mem_map] at hpa hpb
            obtain ⟨q1, _, rfl⟩ := hpa
            obtain ⟨q2, _, he⟩ := hpb
            simp only [List.cons.injEq] at he
            exact hab he.1.symm
    · intro p hp1 hp2
      have hnil : p = [] := by
        split_ifs at hp1
        · simpa using hp1
        · cases hp1
      subst hnil
      rw [List.mem_flatMap] at hp2
      obtain ⟨sl, _, hp⟩ := hp2
      cases hn : g.node_ sl with
      | none => rw [hn] at hp; cases hp
      | some n =>
        rw [hn] at hp
        simp at hp

/-- C11 (no automatic deduplication).  In a finite acyclic graph with all operand
slots wired (the operand slots of one node being distinct objects), with a visitor
whose `shouldVisit` always answers true, `R.visit(P, visitor)` runs to its end, and
for every node `M` the number of `pre(·, M)` calls and the number of `post(·, M)`
calls both equal the number of distinct operand-slot paths from `R` to `M`: there
is a duplicate-free list of exactly these paths, of that length, which is also the
cardinality of the set of paths.  Paths through different slots are different
lists, so parallel edges count separately and a node shared by a diamond is walked
once per incoming path. -/
theorem no_automatic_dedup [Finite Node] [DecidableEq Node] (V : NodeVisitor σ Node)
    (kindOf : Node → Kind Slot) (g : Wiring Node Slot) (hac : Acyclic kindOf g)
    (hw : Wired kindOf g) (hd : SlotsDistinct kindOf) (hv : AlwaysVisits V)
    (R : Node) (P : Option Node) (s : σ) :
    ∃ s1 t, Completes V kindOf g P R s s1 t ∧
      ∀ M, ∃ paths : List (List Slot),
        paths.Nodup ∧ (∀ p, p ∈ paths ↔ IsPath kindOf g R p M) ∧
        preCount M t = paths.length ∧ postCount M t = paths.length ∧
        paths.length = Set.ncard {p | IsPath kindOf g R p M} := by
  obtain ⟨F, hF⟩ := visit_terminates V kindOf g hac R (wiredFrom_of_wired kindOf g hw R) R
    Relation.ReflTransGen.refl
  obtain ⟨r, hr⟩ := hF F le_rfl P s
  refine ⟨r.1, r.2, ⟨F, hr⟩, fun M => ?_⟩
  have hmem : ∀ p, p ∈ pathsTo kindOf g F R M ↔ IsPath kindOf g R p M := fun p =>
    ⟨pathsTo_sound kindOf g M F R p, fun hp =>
      pathsTo_complete kindOf g hp F (paths_short V kindOf g hv hp F P s r hr)⟩
  have hnd := pathsTo_nodup kindOf g hd M F R
  obtain ⟨ha, hb⟩ := visit_counts V kindOf g hv M F P R s r hr
  refine ⟨pathsTo kindOf g F R M, hnd, hmem, ha, hb, ?_⟩
  classical
  have hset : {p | IsPath kindOf g R p M} = ((pathsTo kindOf g F R M).toFinset : Set (List Slot)) := by
    ext p
    simp [hmem p]
  rw [hset, Set.ncard_coe_Finset, List.toFinset_card_of_nodup hnd]

/-- An instance of `no_automatic_dedup`: the diamond, walked from node 0. -/
theorem no_automatic_dedup_witness :
    ∃ s1 t, Completes countingVisitor diamondKind diamondWiring none 0 0 s1 t ∧
      ∀ M, ∃ paths : List (List (Fin 4)),
        paths.Nodup ∧ (∀ p, p ∈ paths ↔ IsPath diamondKind diamondWiring 0 p M) ∧
        preCount M t = paths.length ∧ postCount M t = paths.length ∧
        paths.length = Set.ncard {p | IsPath diamondKind diamondWiring 0 p M} :=
  no_automatic_dedup countingVisitor diamondKind diamondWiring diamond_acyclic diamond_wired
    diamond_slotsDistinct (fun _ _ _ => rfl) 0 none 0

/-- The diamond worked out: walked from node 0 without a visited set, the shared
node 3 is entered twice, once for each of its two paths; with a visited set it is
entered once. -/
theorem diamond_shared_node :
    (∃ s1 t, visit countingVisitor diamondKind diamondWiring 3 none 0 0 = .ok (s1, t) ∧
      preCount 3 t = 2 ∧ postCount 3 t = 2 ∧
      pathsTo diamondKind diamondWiring 3 0 3 = [[0, 2], [1, 3]]) ∧
    (∃ s1 t, visit dedupVisitor diamondKind diamondWiring 5 none 0 ∅ = .ok (s1, t) ∧
      preCount 3 t = 1 ∧ postCount 3 t = 1) :=
  ⟨⟨_, _, rfl, rfl, rfl, rfl⟩, ⟨_, _, rfl, by decide, by decide⟩⟩

end PathCounts

section DedupFacts
variable {σ Node Slot : Type}

theorem genericVisit_pruned {V : NodeVisitor σ Node} {g : Wiring Node Slot}
    {f : Option Node → Node → Walk σ Node} {ops : List Slot} {P : Option Node} {N : Node}
    {s : σ} (hsv : (V.shouldVisit P N s).1 = false) :
    genericVisit V g f ops P N s = .ok ((V.shouldVisit P N s).2, [.shouldVisit P N]) := by
  unfold genericVisit guarded
  simp [hsv]

theorem genericVisit_visited {V : NodeVisitor σ Node} {g : Wiring Node Slot}
    {f : Option Node → Node → Walk σ Node} {ops : List Slot} {P : Option Node} {N : Node}
    {s : σ} {r : σ × List (Hook Node)} (hsv : (V.shouldVisit P N s).1 = true)
    (hr : forEachVisit g f N ops (V.pre P N (V.shouldVisit P N s).2) = .ok r) :
    genericVisit V g f ops P N s =
      .ok (V.post P N r.1, .shouldVisit P N :: .pre P N :: (r.2 ++ [.post P N])) := by
  unfold genericVisit guarded
  rw [if_pos hsv]
  have h2 : ((forEachVisit g f N ops).seq (callPost V P N))
      (V.pre P N (V.shouldVisit P N s).2) = .ok (V.post P N r.1, r.2 ++ [.post P N]) :=
    seq_ok hr rfl
  have h3 := @seq_ok σ Node (callPre V P N) _ (V.shouldVisit P N s).2
    (V.pre P N (V.shouldVisit P N s).2, [.pre P N]) _ rfl h2
  rw [h3]
  rfl

theorem fresh_counts_append [DecidableEq Node] {S T U : Finset Node} (hST : S ⊆ T)
    (hTU : T ⊆ U) (M : Node) :
    ((if M ∈ T ∧ M ∉ S then 1 else 0) + (if M ∈ U ∧ M ∉ T then 1 else 0) : Nat) =
      if M ∈ U ∧ M ∉ S then 1 else 0 := by
  by_cases h1 : M ∈ S
  · have h2 := hST h1
    have h3 := hTU h2
    simp [h1, h2, h3]
  · by_cases h2 : M ∈ T
    · have h3 := hTU h2
      simp [h1, h2, h3]
    · by_cases h3 : M ∈ U <;> simp [h1, h2, h3]

theorem dedup_forEach [Fintype Node] [DecidableEq Node]
    (seen : σ → Finset Node) (kindOf : Node → Kind Slot) (g : Wiring Node Slot)
    (f : Option Node → Node → Walk σ Node) (n : Nat) (N : Node)
    (hf : ∀ (c : Node) (s : σ), Fintype.card Node - (seen s).card ≤ n →
      ∃ r, f (some N) c s = .ok r ∧
        c ∈ seen r.1 ∧ Fresh kindOf g (fun x => x = c) (seen s) (seen r.1) r.2)
    (ops : List Slot) (hw : ∀ sl ∈ ops, g.node_ sl ≠ none) :
    ∀ s : σ, Fintype.card Node - (seen s).card ≤ n →
      ∃ r, forEachVisit g f N ops s = .ok r ∧
        (∀ sl ∈ ops, ∀ c, g.node_ sl = some c → c ∈ seen r.1) ∧
        Fresh kindOf g (fun c => ∃ sl ∈ ops, g.node_ sl = some c) (seen s) (seen r.1) r.2 := by
  induction ops with
  | nil =>
    intro s _
    refine ⟨(s, []), rfl, fun sl hsl => absurd hsl (List.not_mem_nil sl), ?_⟩
    unfold Fresh
    refine ⟨fun x hx => hx, ?_, ?_, ?_, ?_⟩
    · intro x hx hnx; exact absurd hx hnx
    · intro x hx hnx; exact absurd hx hnx
    · intro M; simp [preCount]
    · intro M; simp [postCount]
  | cons I ops ihl =>
    intro s hs
    have hI := hw I (List.mem_cons_self _ _)
    cases hn : g.node_ I with
    | none => exact absurd hn hI
    | some c =>
      obtain ⟨r1, h1, hc1, hsub1, hsrc1, hcl1, hpre1, hpost1⟩ := hf c s hs
      have hcard : (seen s).card ≤ (seen r1.1).card := Finset.card_le_card hsub1
      obtain ⟨r2, h2, hch2, hsub2, hsrc2, hcl2, hpre2, hpost2⟩ :=
        ihl (fun sl hsl => hw sl (List.mem_cons_of_mem _ hsl)) r1.1 (by omega)
      have ha : arrowVisit g f N I s = .ok r1 := by
        unfold arrowVisit
        rw [hn]
        exact h1
      refine ⟨(r2.1, r1.2 ++ r2.2), by simp only [forEachVisit]; exact seq_ok ha h2,
        ?_, ?_⟩
      · intro sl hsl d hd
        rcases List.mem_cons.mp hsl with rfl | hmem
        · rw [hn] at hd
          cases hd
          exact hsub2 hc1
        · exact hch2 sl hmem d hd
      unfold Fresh
      refine ⟨hsub1.trans hsub2, ?_, ?_, ?_, ?_⟩
      · intro x hx hnx
        by_cases hx1 : x ∈ seen r1.1
        · obtain ⟨d, hd, hreach⟩ := hsrc1 x hx1 hnx
          subst hd
          exact ⟨d, ⟨I, List.mem_cons_self _ _, hn⟩, hreach⟩
        · obtain ⟨d, ⟨sl, hsl, hd⟩, hreach⟩ := hsrc2 x hx hx1
          exact ⟨d, ⟨sl, List.mem_cons_of_mem _ hsl, hd⟩, hreach⟩
      · intro x hx hnx y hxy
        by_cases hx1 : x ∈ seen r1.1
        · exact hsub2 (hcl1 x hx1 hnx y hxy)
        · exact hcl2 x hx hx1 y hxy
      · intro M
        simp only [preCount_append, hpre1 M, hpre2 M]
        exact fresh_counts_append hsub1 hsub2 M
      · intro M
        simp only [postCount_append, hpost1 M, hpost2 M]
        exact fresh_counts_append hsub1 hsub2 M

theorem dedup_visit [Fintype Node] [DecidableEq Node] (V : NodeVisitor σ Node)
    (seen : σ → Finset Node) (hV : Dedups V seen) (kindOf : Node → Kind Slot)
    (g : Wiring Node Slot) (hw : Wired kindOf g) :
    ∀ (n : Nat) (P : Option Node) (N : Node) (s : σ),
      Fintype.card Node - (seen s).card ≤ n →
      ∃ r, visit V kindOf g (n + 1) P N s = .ok r ∧
        N ∈ seen r.1 ∧ Fresh kindOf g (fun x => x = N) (seen s) (seen r.1) r.2 := by
  obtain ⟨hsv, hpre, hpost⟩ := hV
  have pruned : ∀ (n : Nat) (P : Option Node) (N : Node) (s : σ), N ∈ seen s →
      ∃ r, visit V kindOf g (n + 1) P N s = .ok r ∧
        N ∈ seen r.1 ∧ Fresh kindOf g (fun x => x = N) (seen s) (seen r.1) r.2 := by
    intro n P N s hN
    have hno : (V.shouldVisit P N s).1 = false := by
      cases hb : (V.shouldVisit P N s).1 with
      | false => rfl
      | true => exact absurd hN ((hsv P N s).1.mp hb)
    have hseen : seen (V.shouldVisit P N s).2 = seen s := by
      rw [(hsv P N s).2, Finset.insert_eq_of_mem hN]
    refine ⟨_, by rw [visit_eq_generic]; exact genericVisit_pruned hno, ?_, ?_⟩
    · simp only [hseen]; exact hN
    · unfold Fresh
      simp only [hseen]
      refine ⟨fun x hx => hx, ?_, ?_, ?_, ?_⟩
      · intro x hx hnx; exact absurd hx hnx
      · intro x hx hnx; exact absurd hx hnx
      · intro M; simp [preCount]
      · intro M; simp [postCount]
  intro n
  induction n with
  | zero =>
    intro P N s hs
    have hall : seen s = Finset.univ := by
      apply Finset.eq_univ_of_card
      have := Finset.card_le_univ (seen s)
      omega
    exact pruned 0 P N s (by rw [hall]; exact Finset.mem_univ N)
  | succ n ih =>
    intro P N s hs
    by_cases hN : N ∈ seen s
    · exact pruned (n + 1) P N s hN
    · have hyes : (V.shouldVisit P N s).1 = true := (hsv P N s).1.mpr hN
      have hseen0 : seen (V.pre P N (V.shouldVisit P N s).2) = insert N (seen s) := by
        rw [hpre, (hsv P N s).2]
      have hcard0 : (insert N (seen s)).card = (seen s).card + 1 :=
        Finset.card_insert_of_not_mem hN
      have hle := Finset.card_le_univ (insert N (seen s))
      obtain ⟨r2, h2, hch, hsub, hsrc, hcl, hpc, hqc⟩ :=
        dedup_forEach seen kindOf g (visit V kindOf g (n + 1)) n N
          (fun c s0 hs0 => ih (some N) c s0 hs0)
          (operandSlots (kindOf N)) (hw N) (V.pre P N (V.shouldVisit P N s).2)
          (by rw [hseen0]; omega)
      rw [hseen0] at hsub hsrc hcl hpc hqc
      have hNin : N ∈ seen r2.1 := hsub (Finset.mem_insert_self N _)
      have hSsub : seen s ⊆ seen r2.1 := (Finset.subset_insert N _).trans hsub
      refine ⟨_, by rw [visit_eq_generic]; exact genericVisit_visited hyes h2, ?_, ?_⟩
      · simp only [hpost]; exact hNin
      · unfold Fresh
        simp only [hpost]
        refine ⟨hSsub, ?_, ?_, ?_, ?_⟩
        · intro x hx hnx
          by_cases hxN : x = N
          · exact ⟨N, rfl, by rw [hxN]; exact Relation.ReflTransGen.refl⟩
          · obtain ⟨c, ⟨sl, hsl, hc⟩, hreach⟩ := hsrc x hx (by
              simp only [Finset.mem_insert, not_or]
              exact ⟨hxN, hnx⟩)
            exact ⟨N, rfl, Relation.ReflTransGen.head ⟨sl, hsl, hc⟩ hreach⟩
        · intro x hx hnx y hxy
          by_cases hxN : x = N
          · subst hxN
            obtain ⟨sl, hsl, hy⟩ := hxy
            exact hch sl hsl y hy
          · exact hcl x hx (by
              simp only [Finset.mem_insert, not_or]
              exact ⟨hxN, hnx⟩) y hxy
        · intro M
          rw [preCount_visited, hpc M]
          by_cases hMN : N = M
          · subst hMN
            simp [hN, hNin]
          · have hMN2 : ¬ (M = N) := fun h => hMN h.symm
            simp [hMN, hMN2]
        · intro M
          rw [postCount_visited, hqc M]
          by_cases hMN : N = M
          · subst hMN
            simp [hN, hNin]
          · have hMN2 : ¬ (M = N) := fun h => hMN h.symm
            simp [hMN, hMN2]

/-- C15 (opt-in deduplication through `shouldVisit`).  In a finite graph with all
operand slots wired, cycles and diamonds allowed, let the visitor keep a visited
set: `shouldVisit(P, N)` answers true exactly the first time it is asked about `N`.
Started with the empty set, `R.visit(P, visitor)` runs to its end and calls `pre`
exactly once and `post` exactly once for every node reachable from `R`, and
neither of them for any other node. -/
theorem optIn_dedup [Fintype Node] [DecidableEq Node] (V : NodeVisitor σ Node)
    (seen : σ → Finset Node) (hV : Dedups V seen) (kindOf : Node → Kind Slot)
    (g : Wiring Node Slot) (hw : Wired kindOf g) (R : Node) (P : Option Node) (s : σ)
    (hs : seen s = ∅) :
    ∃ s1 t, Completes V kindOf g P R s s1 t ∧
      ∀ M, (Reaches kindOf g R M → preCount M t = 1 ∧ postCount M t = 1) ∧
        (¬ Reaches kindOf g R M → preCount M t = 0 ∧ postCount M t = 0) := by
  obtain ⟨r, hr, hR, _, hsrc, hcl, hpc, hqc⟩ :=
    dedup_visit V seen hV kindOf g hw (Fintype.card Node) P R s (Nat.sub_le _ _)
  rw [hs] at hsrc hcl hpc hqc
  have hin : ∀ M, Reaches kindOf g R M → M ∈ seen r.1 := by
    intro M hM
    induction hM with
    | refl => exact hR
    | tail _ he ih => exact hcl _ ih (Finset.not_mem_empty _) _ he
  have hout : ∀ M, M ∈ seen r.1 → Reaches kindOf g R M := by
    intro M hM
    obtain ⟨c, hc, hreach⟩ := hsrc M hM (Finset.not_mem_empty _)
    rw [hc] at hreach
    exact hreach
  refine ⟨r.1, r.2, ⟨_, hr⟩, fun M => ⟨fun hM => ?_, fun hM => ?_⟩⟩
  · rw [hpc M, hqc M]
    simp [hin M hM]
  · have : M ∉ seen r.1 := fun h => hM (hout M h)
    rw [hpc M, hqc M]
    simp [this]

theorem dedupVisitor_dedups : Dedups dedupVisitor id := by
  refine ⟨fun P N s => ⟨?_, rfl⟩, fun _ _ _ => rfl, fun _ _ _ => rfl⟩
  simp [dedupVisitor]

/-- An instance of `optIn_dedup`: the diamond, walked from node 0 with the empty
visited set. -/
theorem optIn_dedup_witness :
    ∃ s1 t, Completes dedupVisitor diamondKind diamondWiring none 0 ∅ s1 t ∧
      ∀ M, (Reaches diamondKind diamondWiring 0 M → preCount M t = 1 ∧ postCount M t = 1) ∧
        (¬ Reaches diamondKind diamondWiring 0 M → preCount M t = 0 ∧ postCount M t = 0) :=
  optIn_dedup dedupVisitor id dedupVisitor_dedups diamondKind diamondWiring diamond_wired
    0 none ∅ rfl

end DedupFacts

end Glow
